import Mathlib

/-!
Verification development for the balancete (trial-balance) PDF text parser.

Strings are modelled as `List Char`.  The Python regular expressions used by
the source are hand-compiled to deterministic scanners below; each scanner's
doc comment names the pattern it implements and the file that uses it.
Python's Unicode-aware character classes (`\w`, `\s`, `str.upper`,
`str.isupper`, `str.isalpha`) are modelled on the ASCII + Latin-1 fragment,
which covers every character appearing in the repository's keyword lists and
in the report language (Portuguese).
-/

namespace Balancete

/-- Python `str.isdigit` restricted to ASCII digits (the only digits the
source's regexes `\d` can produce on this report family). -/
def isDigitC (c : Char) : Bool := c.isDigit

/-- ASCII letter. -/
def isAsciiLetterC (c : Char) : Bool := c.isAlpha

/-- Latin-1 uppercase letter À..Þ minus the multiplication sign ×. -/
def isAccentUpperC (c : Char) : Bool :=
  0xC0 ≤ c.toNat && c.toNat ≤ 0xDE && c.toNat ≠ 0xD7

/-- Latin-1 lowercase letter ß..ÿ minus the division sign ÷. -/
def isAccentLowerC (c : Char) : Bool :=
  0xDF ≤ c.toNat && c.toNat ≤ 0xFF && c.toNat ≠ 0xF7

/-- Letter (Python `str.isalpha` on the Latin-1 fragment). -/
def isLetterC (c : Char) : Bool :=
  isAsciiLetterC c || isAccentUpperC c || isAccentLowerC c

/-- Word character, Python's `\w` on the Latin-1 fragment. -/
def isWordC (c : Char) : Bool := isLetterC c || isDigitC c || c = '_'

/-- Whitespace, Python's `\s` (ASCII part). -/
def isSpaceC (c : Char) : Bool :=
  c = ' ' || c = '\t' || c = '\n' || c = '\r' || c = '\x0b' || c = '\x0c'

/-- Python `str.upper` on the Latin-1 fragment (à..þ map to À..Þ; ß and ÿ,
which Python maps outside Latin-1, do not occur in the report language's
uppercase keyword comparisons). -/
def upperC (c : Char) : Char :=
  if 'a' ≤ c && c ≤ 'z' then Char.ofNat (c.toNat - 32)
  else if 0xE0 ≤ c.toNat && c.toNat ≤ 0xFE && c.toNat ≠ 0xF7 then
    Char.ofNat (c.toNat - 32)
  else c

def upperL (ls : List Char) : List Char := ls.map upperC

/-- `a` is a case-insensitive prefix of `b`:
`b.upper().startswith(a.upper())` in the source's stack update. -/
def isPrefixCI (a b : List Char) : Bool := (upperL a).isPrefixOf (upperL b)

/-- Length of the leading run of decimal digits (`\d+` greedily). -/
def digitRun (ls : List Char) : Nat := (ls.takeWhile isDigitC).length

/-- Length of the leading run of `[\d\.]` characters. -/
def digitDotRun (ls : List Char) : Nat :=
  (ls.takeWhile (fun c => isDigitC c || c = '.')).length

/-- Python `str.strip()` (whitespace at both ends). -/
def trim (ls : List Char) : List Char :=
  ((ls.dropWhile isSpaceC).reverse.dropWhile isSpaceC).reverse

/-- Collapse every whitespace run to a single `' '`
(the source's `re.sub(r'\s+', ' ', ...)`). -/
def collapse : List Char → List Char
  | [] => []
  | [c] => if isSpaceC c then [' '] else [c]
  | c :: d :: r =>
    if isSpaceC c then
      (if isSpaceC d then collapse (d :: r) else ' ' :: collapse (d :: r))
    else c :: collapse (d :: r)

/-- Python `str.split()` helper: accumulates the current word reversed. -/
def splitWSAux : List Char → List Char → List (List Char)
  | acc, [] => if acc = [] then [] else [acc.reverse]
  | acc, c :: r =>
    if isSpaceC c then
      (if acc = [] then splitWSAux [] r else acc.reverse :: splitWSAux [] r)
    else splitWSAux (c :: acc) r

/-- Python `str.split()` with no separator: whitespace-delimited words. -/
def splitWS (ls : List Char) : List (List Char) := splitWSAux [] ls

/-- `' '.join(ws)`. -/
def joinSpace : List (List Char) → List Char
  | [] => []
  | [w] => w
  | w :: ws => w ++ ' ' :: joinSpace ws

/-- Word boundary `\b` test against the character before the current
position (`none` = start of string). -/
def boundaryB (prev : Option Char) : Bool :=
  match prev with
  | none => true
  | some c => !isWordC c

/-- Word boundary `\b` after a match: the next character, if any, must not
be a word character. -/
def boundaryAfter (ls : List Char) : Bool :=
  match ls with
  | [] => true
  | c :: _ => !isWordC c

/-- Generic leftmost-match search: try the matcher at each position,
left to right, tracking the previous character for `\b` tests.  Returns
the match position (relative to the start of `ls`) and the match. -/
def scanFirst (try_ : Option Char → List Char → Option (List Char)) :
    Option Char → List Char → Option (Nat × List Char)
  | prev, [] => (try_ prev []).map (fun m => (0, m))
  | prev, c :: r =>
    match try_ prev (c :: r) with
    | some m => some (0, m)
    | none => (scanFirst try_ (some c) r).map (fun p => (p.1 + 1, p.2))

/-- Generic `re.finditer`-style scan: leftmost non-overlapping matches; on
a match, scanning resumes after it.  Fuelled (the fuel is always supplied
as `ls.length + 1`, which is sufficient because every matcher below
consumes at least one character). -/
def scanAll (try_ : Option Char → List Char → Option (List Char)) :
    Nat → Option Char → Nat → List Char → List (Nat × List Char)
  | 0, _, _, _ => []
  | fuel + 1, prev, i, ls =>
    match try_ prev ls with
    | some m =>
      (i, m) :: scanAll try_ fuel ((ls.take m.length).getLast?.orElse (fun _ => prev))
        (i + m.length) (ls.drop m.length)
    | none =>
      match ls with
      | [] => []
      | c :: r => scanAll try_ fuel (some c) (i + 1) r

/-- Generic `re.sub`-style scan: each match is replaced by the second
component the matcher returns; scanning resumes after the match in the
original string (Python semantics).  Fuelled like `scanAll`. -/
def subScan (try_ : Option Char → List Char → Option (List Char × List Char)) :
    Nat → Option Char → List Char → List Char
  | 0, _, ls => ls
  | fuel + 1, prev, ls =>
    match try_ prev ls with
    | some (m, rep) =>
      rep ++ subScan try_ fuel ((ls.take m.length).getLast?.orElse (fun _ => prev))
        (ls.drop m.length)
    | none =>
      match ls with
      | [] => []
      | c :: r => c :: subScan try_ fuel (some c) r

/-- Leftmost occurrence of `pat` as a contiguous substring. -/
def findSub (pat ls : List Char) : Option Nat :=
  (scanFirst (fun _ l => if pat.isPrefixOf l then some pat else none) none ls).map (·.1)

/-- `pat` occurs as a contiguous substring (`pat in s` for Python strings). -/
def containsSub (ls pat : List Char) : Bool := (findSub pat ls).isSome

/-- Python `str.replace(pat, rep, 1)`. -/
def replaceFirst (ls pat rep : List Char) : List Char :=
  match findSub pat ls with
  | some i => ls.take i ++ rep ++ ls.drop (i + pat.length)
  | none => ls

/-- Python `str.replace(pat, rep)` (all occurrences), fuelled. -/
def replaceAllAux (pat rep : List Char) : Nat → List Char → List Char
  | 0, ls => ls
  | fuel + 1, ls =>
    if pat = [] then ls
    else
      match findSub pat ls with
      | some i =>
        ls.take i ++ rep ++ replaceAllAux pat rep fuel (ls.drop (i + pat.length))
      | none => ls

def replaceAll (ls pat rep : List Char) : List Char :=
  replaceAllAux pat rep (ls.length + 1) ls

/-- Occurrences of `'.'` in a string (`str.count('.')`). -/
def dotCount (ls : List Char) : Nat := ls.count '.'

/-!  ## Compiled regular expressions

Each `try…` matcher decides whether its pattern matches at the *current*
position and, if so, returns the matched substring (always a prefix of the
remaining input plus, where noted, structural components).  The greedy /
backtracking behaviour of the Python pattern has been resolved by hand to a
deterministic rule where backtracking can never change the outcome; the
derivation is noted next to each matcher.  -/

/-- `[\d\.]+,\d{2}` (monetary token of `extract_pdf.py` /
`extract_pdf_final.py` / `extract_pdf_v3.py`): a maximal `[\d.]` run must be
followed by `,` and two digits.  Shortening the run can never expose a `,`
(all run characters are `[\d.]`), so greedy matching is deterministic. -/
def tryMonEP (_prev : Option Char) (ls : List Char) : Option (List Char) :=
  let r := digitDotRun ls
  if r = 0 then none
  else
    match ls.drop r with
    | ',' :: a :: b :: _ =>
      if isDigitC a && isDigitC b then some (ls.take (r + 3)) else none
    | _ => none

/-- `[\d]+,\d{2}`, the second alternative of `extract_pdf_v2.py`'s monetary
pattern (prefix-anchored use via `re.match`). -/
def tryMonDigitsOnly (_prev : Option Char) (ls : List Char) : Option (List Char) :=
  let r := digitRun ls
  if r = 0 then none
  else
    match ls.drop r with
    | ',' :: a :: b :: _ =>
      if isDigitC a && isDigitC b then some (ls.take (r + 3)) else none
    | _ => none

/-- `[\d\.]+,\d{2}|[\d]+,\d{2}` (`extract_pdf_v2.py`): alternation, first
branch preferred. -/
def tryMonV2 (prev : Option Char) (ls : List Char) : Option (List Char) :=
  match tryMonEP prev ls with
  | some m => some m
  | none => tryMonDigitsOnly prev ls

/-- `\b(\d{4,6})\b` (ledger code of `extract_pdf.py` et al.): with the
boundary before, a digit run of length `4..6` whose follower is not a word
character.  If the run is longer than 6 every greedy choice leaves a digit
after the group, so there is no match. -/
def tryCode46 (prev : Option Char) (ls : List Char) : Option (List Char) :=
  if !boundaryB prev then none
  else
    let L := digitRun ls
    if 4 ≤ L && L ≤ 6 && boundaryAfter (ls.drop L) then some (ls.take L)
    else none

/-- One segment `\d+` (greedy, deterministic): returns the digits and the
rest, or `none` when the run is empty. -/
def seg (ls : List Char) : Option (List Char × List Char) :=
  let L := digitRun ls
  if L = 0 then none else some (ls.take L, ls.drop L)

/-- `\d+\.\d+\.\d+\.\d+\.\d+`, optionally wrapped in `\b…\b`
(classification code, five dot-separated digit groups).  Each `\d+` is a
maximal digit run: shortening a run leaves a digit where `.` is required,
so greedy matching is deterministic.  The match is returned as the
concatenation of its five digit groups and four dots. -/
def tryClass5 (withB : Bool) (prev : Option Char) (ls : List Char) :
    Option (List Char) :=
  if withB && !boundaryB prev then none
  else
    match seg ls with
    | none => none
    | some (d1, r1) =>
      match r1 with
      | '.' :: r1' =>
        match seg r1' with
        | none => none
        | some (d2, r2) =>
          match r2 with
          | '.' :: r2' =>
            match seg r2' with
            | none => none
            | some (d3, r3) =>
              match r3 with
              | '.' :: r3' =>
                match seg r3' with
                | none => none
                | some (d4, r4) =>
                  match r4 with
                  | '.' :: r4' =>
                    match seg r4' with
                    | none => none
                    | some (d5, r5) =>
                      if withB && !boundaryAfter r5 then none
                      else some (d1 ++ '.' :: d2 ++ '.' :: d3 ++ '.' :: d4 ++ '.' :: d5)
                  | _ => none
              | _ => none
          | _ => none
      | _ => none

/-- Greedy consumption of `(?:\.\d{3})*` for the monetary pattern of
`final_balancete_parser.py`: repeatedly consume `.` followed by exactly
three digits. -/
def repsMon : List Char → Nat
  | '.' :: a :: b :: c :: r =>
    if isDigitC a && isDigitC b && isDigitC c then 4 + repsMon r else 0
  | _ => 0

/-- `-?\d{1,3}(?:\.\d{3})*,\d{2}` (`final_balancete_parser.py`).  The
leading digit run must be maximal of length 1..3 (a longer run makes every
greedy choice fail on the follower); dropping grouping repetitions during
backtracking always lands on a `.` where `,` is required, so the greedy
rule is deterministic. -/
def tryMonFBP (_prev : Option Char) (ls : List Char) : Option (List Char) :=
  let negLen : Nat := match ls with | '-' :: _ => 1 | _ => 0
  let rest := ls.drop negLen
  let L := digitRun rest
  if L = 0 || 3 < L then none
  else
    let R := repsMon (rest.drop L)
    match rest.drop (L + R) with
    | ',' :: a :: b :: _ =>
      if isDigitC a && isDigitC b then some (ls.take (negLen + L + R + 3)) else none
    | _ => none

/-- Greedy repetitions of `(?:\.\d{1,3})` for the classification pattern of
`final_balancete_parser.py`: each repetition consumes `.` plus
`min 3 run` digits; returns the list of per-repetition lengths. -/
def repsClass : Nat → List Char → List Nat
  | 0, _ => []
  | _, [] => []
  | fuel + 1, '.' :: r =>
    let L := digitRun r
    if L = 0 then []
    else
      let k := min 3 L
      (k + 1) :: repsClass fuel (r.drop k)
  | _ + 1, _ => []

/-- `\b(\d{1,2}\.\d{1,2}(?:\.\d{1,3}){1,})\b` (`final_balancete_parser.py`
classification).  The first two segments must be maximal runs of length
1..2 followed by `.`.  The `{1,}` group is consumed greedily; if the final
`\b` fails (a word character follows), dropping the last repetition lands
on its `.` which satisfies `\b`, so exactly one repetition is dropped when
at least two were consumed, otherwise there is no match here. -/
def tryClassFBP (prev : Option Char) (ls : List Char) : Option (List Char) :=
  if !boundaryB prev then none
  else
    let L1 := digitRun ls
    if L1 = 0 || 2 < L1 then none
    else
      match ls.drop L1 with
      | '.' :: r1 =>
        let L2 := digitRun r1
        if L2 = 0 || 2 < L2 then none
        else
          let r2 := r1.drop L2
          let reps := repsClass (r2.length + 1) r2
          if reps = [] then none
          else
            let total := reps.foldl (· + ·) 0
            let fullLen := L1 + 1 + L2 + total
            if boundaryAfter (r2.drop total) then some (ls.take fullLen)
            else if 2 ≤ reps.length then
              some (ls.take (fullLen - reps.getLast!))
            else none
      | _ => none

/-- The record built by every line parser (`LineRecord` of the spec):
`None` fields are `Option.none`. -/
structure Entry where
  code : Option (List Char)
  classification : Option (List Char)
  account : List Char
  previous_balance : Option (List Char)
  debit : Option (List Char)
  credit : Option (List Char)
  current_balance : Option (List Char)
  parent_category : Option (List Char)
deriving DecidableEq, Repr, Inhabited

/-- An all-`none` record around an account name. -/
def bareEntry (a : List Char) : Entry :=
  { code := none, classification := none, account := a,
    previous_balance := none, debit := none, credit := none,
    current_balance := none, parent_category := none }

namespace EP

/-!  ## `extract_pdf.py`  -/

/-- Character class `[A-Za-zÀ-ÿ]` (note: the range `À-ÿ` is the whole
Latin-1 block `0xC0..0xFF`). -/
def isLetterEP (c : Char) : Bool :=
  c.isAlpha || (0xC0 ≤ c.toNat && c.toNat ≤ 0xFF)

/-- `([A-Za-zÀ-ÿ]+)(\d+)(\s|$|[A-Z])` replaced by `\1\3`
(`clean_account_name_final`, the `"CAIXA4" -> "CAIXA"` rule).  Both runs
are maximal (shortening either leaves a character the next group cannot
accept), and the third group consumes one whitespace or ASCII-uppercase
character, or matches the end of the string. -/
def tryLetterDigitEP (_prev : Option Char) (ls : List Char) :
    Option (List Char × List Char) :=
  let letters := ls.takeWhile isLetterEP
  if letters = [] then none
  else
    let rest := ls.drop letters.length
    let digits := rest.takeWhile isDigitC
    if digits = [] then none
    else
      match rest.drop digits.length with
      | [] => some (letters ++ digits, letters)
      | c :: _ =>
        if isSpaceC c || ('A' ≤ c && c ≤ 'Z') then
          some (letters ++ digits ++ [c], letters ++ [c])
        else none

/-- `re.sub(r'\.(?!\d)', ' ', ...)`: a dot not followed by a digit becomes
a space. -/
def dotSub : List Char → List Char
  | [] => []
  | '.' :: rest =>
    (match rest with
     | d :: _ => if isDigitC d then '.' else ' '
     | [] => ' ') :: dotSub rest
  | c :: rest => c :: dotSub rest

/-- `re.sub(r'^\d{4,6}\s+', '', name)`: only a maximal leading digit run
of length 4..6 followed by whitespace can match. -/
def stripLeadCode46 (n : List Char) : List Char :=
  let L := digitRun n
  if 4 ≤ L && L ≤ 6 then
    let ws := (n.drop L).takeWhile isSpaceC
    if ws = [] then n else n.drop (L + ws.length)
  else n

/-- Placeholder `__PROTECTED_{i}__` used while shielding classification
codes from digit stripping. -/
def placeholder (i : Nat) : List Char :=
  "__PROTECTED_".data ++ (toString i).data ++ "__".data

/-- `name.replace(match.group(), placeholder, 1)` for each classification
match, in order of appearance. -/
def protectFold : Nat → List (List Char) → List Char → List Char
  | _, [], n => n
  | i, m :: ms, n => protectFold (i + 1) ms (replaceFirst n m (placeholder i))

/-- `name.replace(placeholder, code)` for each protected part. -/
def restoreFold : Nat → List (List Char) → List Char → List Char
  | _, [], n => n
  | i, m :: ms, n => restoreFold (i + 1) ms (replaceAll n (placeholder i) m)

/-- The character-by-character digit-stripping loop of
`clean_account_name_final`: look-behind and look-ahead are taken in the
*original* string (the loop builds `cleaned` separately). -/
def epCharLoop : Option Char → List Char → List Char
  | _, [] => []
  | prev, c :: rest =>
    if isDigitC c then
      let prevAlpha := match prev with | some p => isLetterC p | none => false
      let nextAlpha := match rest with | n :: _ => isLetterC n | [] => false
      if prevAlpha && nextAlpha then epCharLoop (some c) rest
      else if (match prev with | some p => isDigitC p | none => false) then
        c :: epCharLoop (some c) rest
      else if (match rest with | n :: _ => isDigitC n | [] => false) then
        c :: epCharLoop (some c) rest
      else if prevAlpha || nextAlpha then epCharLoop (some c) rest
      else c :: epCharLoop (some c) rest
    else c :: epCharLoop (some c) rest

/-- Number of equal characters at equal positions (`zip` comparison of
`remove_duplicate_text`). -/
def simMatches (a b : List Char) : Nat :=
  ((a.zip b).filter (fun p => p.1 = p.2)).length

/-- `similarity > 0.8` with `similarity = matches / max(len, len)`:
decided exactly over the rationals as `5 * matches > 4 * maxlen` (the
float comparison agrees for all realistic word lengths). -/
def similar (a b : List Char) : Bool :=
  4 * max a.length b.length < 5 * simMatches a b

/-- The word loop of `remove_duplicate_text`: when two consecutive words
longer than 3 are similar, the second is dropped and scanning resumes two
words later. -/
def rdtAux : List (List Char) → List (List Char)
  | [] => []
  | [w] => [w]
  | w :: w2 :: rest =>
    if 3 < w.length && 3 < w2.length && similar w w2 then w :: rdtAux rest
    else w :: rdtAux (w2 :: rest)

/-- `remove_duplicate_text` (`extract_pdf.py`). -/
def remove_duplicate_text (t : List Char) : List Char :=
  if t = [] then []
  else
    let ws := splitWS t
    if ws.length < 2 then t else joinSpace (rdtAux ws)

/-- `clean_account_name_final` (`extract_pdf.py`): strip a leading ledger
code, shield five-segment classification codes behind placeholders, strip
interleaved digits, restore, drop `WORD<digits>` tails, turn non-code dots
into spaces, collapse whitespace, drop adjacent near-duplicate words,
trim. -/
def clean_account_name_final (name : List Char) : List Char :=
  if name = [] then []
  else
    let n1 := stripLeadCode46 name
    let ms := (scanAll (tryClass5 true) (n1.length + 1) none 0 n1).map (·.2)
    let n2 := protectFold 0 ms n1
    let n3 := epCharLoop none n2
    let n4 := restoreFold 0 ms n3
    let n5 := subScan tryLetterDigitEP (n4.length + 1) none n4
    let n6 := dotSub n5
    let n7 := collapse n6
    let n8 := remove_duplicate_text n7
    trim n8

/-- `parse_monetary_value`: keep `[\d.,]` characters and require the full
shape `^[\d\.]+,\d{2}$`. -/
def pmv (v : List Char) : Option (List Char) :=
  if v = [] then none
  else
    let cleaned := v.filter (fun c => isDigitC c || c = '.' || c = ',')
    let r := digitDotRun cleaned
    if 0 < r then
      match cleaned.drop r with
      | [',', a, b] => if isDigitC a && isDigitC b then some cleaned else none
      | _ => none
    else none

/-- The skip-keyword list of `parse_data_line` (and of the page loop of
`extract_data_from_pdf`, which uses the same list). -/
def skipKeys : List (List Char) :=
  ["EMPRESA:", "C.N.P.J.:", "PERÍODO:", "EMISSÃO:", "HORA:",
   "BALANCETE", "CÓDIGO", "CLASSIFICAÇÃO", "DESCRIÇÃO",
   "SALDO ANTERIOR", "DÉBITO", "CRÉDITO", "SALDO ATUAL",
   "CONSOLIDADO", "CPF:", "_______________________________________",
   "GILMIER", "CRISTIANI", "MIRI", "ZUCOLOTO", "NÚMERO LIVRO",
   "FOLHA:"].map String.data

def skipLine (l : List Char) : Bool :=
  skipKeys.any (fun k => containsSub (upperL l) k)

/-- Monetary matches of a line, as computed by `parse_data_line` (the line
is stripped first). -/
def monetaryOf (line : List Char) : List (Nat × List Char) :=
  let l := trim line
  scanAll tryMonEP (l.length + 1) none 0 l

/-- The prefix region of `parse_data_line`: the stripped text before the
first monetary token (`parts_before_values` in the source; `[]` when the
line has no monetary token and the region is never formed). -/
def prefixOf (line : List Char) : List Char :=
  match monetaryOf line with
  | [] => []
  | (s0, _) :: _ => trim ((trim line).take s0)

/-- The monetary-slot assignment block of `parse_data_line`
(`extract_pdf.py` lines 269..282): note that with four or more values the
*first* four are used. -/
def assignValues (e : Entry) (vals : List (List Char)) : Entry :=
  if 4 ≤ vals.length then
    { e with previous_balance := pmv (vals.getD 0 []),
             debit := pmv (vals.getD 1 []),
             credit := pmv (vals.getD 2 []),
             current_balance := pmv (vals.getD 3 []) }
  else if vals.length = 3 then
    { e with previous_balance := pmv (vals.getD 0 []),
             debit := pmv (vals.getD 1 []),
             credit := pmv (vals.getD 2 []) }
  else if vals.length = 2 then
    { e with previous_balance := pmv (vals.getD 0 []),
             current_balance := pmv (vals.getD 1 []) }
  else if vals.length = 1 then
    { e with current_balance := pmv (vals.getD 0 []) }
  else e

/-- `parse_data_line` (`extract_pdf.py`). -/
def parse_data_line (line : List Char) : Option Entry :=
  if line = [] || (trim line).length < 3 then none
  else
    let l := trim line
    if skipLine l then none
    else
      let ms := monetaryOf line
      match ms with
      | [] =>
        if 10 < l.length then
          let a := clean_account_name_final l
          if a ≠ [] && 3 < a.length then some (bareEntry a) else none
        else none
      | (s0, _) :: _ =>
        let vals := ms.map (·.2)
        let pfx := trim (l.take s0)
        match scanFirst (tryClass5 true) none pfx with
        | some (ci, cm) =>
          let code := (scanFirst tryCode46 none (trim (pfx.take ci))).map (·.2)
          let account := clean_account_name_final (trim (pfx.drop (ci + cm.length)))
          if account = [] || account.length < 3 then none
          else some (assignValues
            { bareEntry account with code := code, classification := some cm } vals)
        | none =>
          match scanFirst tryCode46 none pfx with
          | some (cj, cd) =>
            let account := clean_account_name_final (trim (pfx.drop (cj + cd.length)))
            if account = [] || account.length < 3 then none
            else some (assignValues { bareEntry account with code := some cd } vals)
          | none =>
            let account := clean_account_name_final (trim pfx)
            if account = [] || account.length < 3 then none
            else some (assignValues (bareEntry account) vals)

/-- The bold-category test of the page loop (`extract_data_from_pdf`,
lines 390..403): the first bold candidate on the line's y-band whose
cleaned text is longer than 5, occurs (case-insensitively) in the line,
and such that the line carries no five-segment classification code. -/
def findCategory (cands : List (List Char)) (line : List Char) :
    Option (List Char) :=
  cands.findSome? (fun bt =>
    let cb := clean_account_name_final bt
    if cb ≠ [] && 5 < cb.length
        && (containsSub (upperL line) (upperL cb)
            || (10 < cb.length && containsSub (upperL line) (upperL (cb.take 15))))
        && !(scanFirst (tryClass5 true) none line).isSome
    then some cb else none)

/-- The stack update of the page loop: entries that are case-insensitive
prefixes of the new category are removed, then the new category is
appended. -/
def categoryPush (stack : List (List Char)) (name : List Char) :
    List (List Char) :=
  (stack.filter (fun c => !isPrefixCI c name)) ++ [name]

/-- One text line of a page together with the bold runs whose y-position
matched it (the geometric `abs(y) < 5` test consumes external character
coordinates and is represented by membership in this list). -/
structure PageLine where
  text : List Char
  boldCands : List (List Char)
deriving Repr

/-- One iteration of the page loop of `extract_data_from_pdf`
(`extract_pdf.py` lines 362..419): returns the new category stack and the
records appended to `all_data`. -/
def step (stack : List (List Char)) (li : PageLine) :
    List (List Char) × List Entry :=
  let line := trim li.text
  if line = [] || line.length < 3 then (stack, [])
  else if skipLine line then (stack, [])
  else
    match findCategory li.boldCands line with
    | some cb =>
      let stack' := categoryPush stack cb
      match parse_data_line line with
      | some e => (stack', [{ e with parent_category := none }])
      | none => (stack', [])
    | none =>
      match parse_data_line line with
      | some e =>
        match stack.getLast? with
        | some p => (stack, [{ e with parent_category := some p }])
        | none => (stack, [e])
      | none => (stack, [])

/-- The page loop folded over a list of lines. -/
def runFrom (stack : List (List Char)) (out : List Entry) :
    List PageLine → List (List Char) × List Entry
  | [] => (stack, out)
  | li :: rest =>
    let p := step stack li
    runFrom p.1 (out ++ p.2) rest

def run (lines : List PageLine) : List (List Char) × List Entry :=
  runFrom [] [] lines

end EP

namespace EPF

/-!  ## `extract_pdf_final.py`  -/

/-- `[\x00-\x1f\x7f-\x9f]` (control characters removed by `clean_text`). -/
def isCtrl (c : Char) : Bool :=
  c.toNat ≤ 0x1f || (0x7f ≤ c.toNat && c.toNat ≤ 0x9f)

/-- `clean_text`: drop control characters, collapse whitespace, strip. -/
def clean_text (t : List Char) : List Char :=
  trim (collapse (t.filter (fun c => !isCtrl c)))

/-- `re.sub(r'^\d+\s+', '', name)`: the digit run must be maximal and
followed by at least one whitespace character. -/
def stripLeadDigitsWS (n : List Char) : List Char :=
  let L := digitRun n
  if 0 < L then
    let ws := (n.drop L).takeWhile isSpaceC
    if ws = [] then n else n.drop (L + ws.length)
  else n

/-- `([A-Za-z])(\d+)([A-Za-z])` replaced by `\1\3` (single ASCII letters
around a maximal digit run). -/
def tryLDLmulti (_prev : Option Char) (ls : List Char) :
    Option (List Char × List Char) :=
  match ls with
  | c1 :: rest =>
    if c1.isAlpha then
      let digits := rest.takeWhile isDigitC
      if digits = [] then none
      else
        match rest.drop digits.length with
        | c3 :: _ =>
          if c3.isAlpha then some (c1 :: digits ++ [c3], [c1, c3]) else none
        | [] => none
    else none
  | [] => none

/-- `([A-Za-z])(\d)([A-Za-z])` replaced by `\1\3` (exactly one digit). -/
def tryLDLsingle (_prev : Option Char) (ls : List Char) :
    Option (List Char × List Char) :=
  match ls with
  | c1 :: d :: c3 :: _ =>
    if c1.isAlpha && isDigitC d && c3.isAlpha then
      some ([c1, d, c3], [c1, c3])
    else none
  | _ => none

/-- `clean_account_name` (`extract_pdf_final.py`). -/
def clean_account_name (name : List Char) : List Char :=
  if name = [] then []
  else
    let n1 := stripLeadDigitsWS name
    let n2 := subScan tryLDLmulti (n1.length + 1) none n1
    let n3 := subScan tryLDLsingle (n2.length + 1) none n2
    trim (collapse n3)

/-- Skip keywords of `parse_data_line` (`extract_pdf_final.py`). -/
def skipKeys : List (List Char) :=
  ["EMPRESA:", "C.N.P.J.:", "PERÍODO:", "EMISSÃO:", "HORA:",
   "BALANCETE", "CÓDIGO", "CLASSIFICAÇÃO", "DESCRIÇÃO",
   "SALDO ANTERIOR", "DÉBITO", "CRÉDITO", "SALDO ATUAL",
   "CONSOLIDADO", "CPF:", "_______________________________________",
   "GILMIER", "CRISTIANI", "MIRI", "ZUCOLOTO"].map String.data

def skipLine (l : List Char) : Bool :=
  skipKeys.any (fun k => containsSub (upperL l) k)

/-- Monetary matches of `parse_data_line` (computed on the
`clean_text`-normalised line). -/
def monetaryOf (line : List Char) : List (Nat × List Char) :=
  let l := clean_text line
  scanAll tryMonEP (l.length + 1) none 0 l

/-- `parse_data_line` (`extract_pdf_final.py`): same structure as
`extract_pdf.py`, but the threshold for a bare category line is 15, the
classification pattern has no word boundaries, the account may fall back
to the text after the last monetary value, and the only guard on the
cleaned account is non-emptiness.  `parse_monetary_value` is textually
identical to `extract_pdf.py`'s, so `EP.pmv` is reused. -/
def parse_data_line (line : List Char) : Option Entry :=
  if line = [] || (trim line).length < 5 then none
  else
    let l := clean_text line
    if skipLine l then none
    else
      let ms := monetaryOf line
      match ms with
      | [] =>
        if 15 < l.length then some (bareEntry (clean_account_name l)) else none
      | (s0, _) :: _ =>
        let vals := ms.map (·.2)
        let pfx := trim (l.take s0)
        let lastEnd := match ms.getLast? with
          | some p => p.1 + p.2.length
          | none => 0
        let sfx := trim (l.drop lastEnd)
        let mkAccount := fun (t : List Char) =>
          clean_account_name (if t = [] && sfx ≠ [] then sfx else t)
        match scanFirst (tryClass5 false) none pfx with
        | some (ci, cm) =>
          let code := (scanFirst tryCode46 none (trim (pfx.take ci))).map (·.2)
          let account := mkAccount (trim (pfx.drop (ci + cm.length)))
          if account = [] then none
          else some (EP.assignValues
            { bareEntry account with code := code, classification := some cm } vals)
        | none =>
          match scanFirst tryCode46 none pfx with
          | some (cj, cd) =>
            let account := mkAccount (trim (pfx.drop (cj + cd.length)))
            if account = [] then none
            else some (EP.assignValues
              { bareEntry account with code := some cd } vals)
          | none =>
            let account := mkAccount (trim pfx)
            if account = [] then none
            else some (EP.assignValues (bareEntry account) vals)

end EPF

namespace V3

/-!  ## `extract_pdf_v3.py`  -/

/-- `([A-Za-z])(\d+)(\s|$)` replaced by `\1\3` (`clean_account_name`,
`extract_pdf_v3.py`): one ASCII letter, a maximal digit run, then one
whitespace character (consumed) or the end of the string. -/
def tryLetterDigitV3 (_prev : Option Char) (ls : List Char) :
    Option (List Char × List Char) :=
  match ls with
  | c1 :: rest =>
    if c1.isAlpha then
      let digits := rest.takeWhile isDigitC
      if digits = [] then none
      else
        match rest.drop digits.length with
        | [] => some (c1 :: digits, [c1])
        | c :: _ =>
          if isSpaceC c then some (c1 :: digits ++ [c], [c1, c]) else none
    else none
  | [] => none

/-- `([A-Za-zÀ-ÿ])(\d)([A-Za-zÀ-ÿ])` replaced by `\1\3`: one Latin-1
letter-class character on each side of exactly one digit. -/
def tryLDL1 (_prev : Option Char) (ls : List Char) :
    Option (List Char × List Char) :=
  match ls with
  | c1 :: d :: c3 :: _ =>
    if EP.isLetterEP c1 && isDigitC d && EP.isLetterEP c3 then
      some ([c1, d, c3], [c1, c3])
    else none
  | _ => none

/-- The "protect classification codes" block of `clean_account_name`
(`extract_pdf_v3.py` lines 115..130): it splits the string at the
classification matches and concatenates the pieces back, which rebuilds
the string unchanged; it is reproduced literally. -/
def protectRebuildAux : Nat → List (Nat × List Char) → List Char → List Char
  | last, [], n => n.drop last
  | last, (s, m) :: ms, n =>
    (n.drop last).take (s - last) ++ m ++ protectRebuildAux (s + m.length) ms n

def protectRebuild (n : List Char) : List Char :=
  protectRebuildAux 0 (scanAll (tryClass5 false) (n.length + 1) none 0 n) n

/-- `clean_account_name` (`extract_pdf_v3.py`). -/
def clean_account_name (name : List Char) : List Char :=
  if name = [] then []
  else
    let n1 := EP.stripLeadCode46 name
    let n2 := subScan tryLetterDigitV3 (n1.length + 1) none n1
    let n3 := protectRebuild n2
    let n4 := subScan tryLDL1 (n3.length + 1) none n3
    trim (collapse n4)

/-- Skip keywords of `parse_data_line` (`extract_pdf_v3.py` lines
162..168). -/
def skipKeys : List (List Char) :=
  ["EMPRESA:", "C.N.P.J.:", "PERÍODO:", "EMISSÃO:", "HORA:",
   "BALANCETE", "CÓDIGO", "CLASSIFICAÇÃO", "DESCRIÇÃO",
   "SALDO ANTERIOR", "DÉBITO", "CRÉDITO", "SALDO ATUAL",
   "CONSOLIDADO", "CPF:", "_______________________________________",
   "GILMIER", "CRISTIANI", "MIRI", "ZUCOLOTO", "NÚMERO LIVRO"].map String.data

def skipLine (l : List Char) : Bool :=
  skipKeys.any (fun k => containsSub (upperL l) k)

/-- Skip keywords of the page loop of `extract_data_from_pdf`
(`extract_pdf_v3.py` lines 296..302): `parse_data_line`'s list plus
`FOLHA:`. -/
def pageSkipKeys : List (List Char) :=
  ["EMPRESA:", "C.N.P.J.:", "PERÍODO:", "EMISSÃO:", "HORA:",
   "BALANCETE", "CÓDIGO", "CLASSIFICAÇÃO", "DESCRIÇÃO",
   "SALDO ANTERIOR", "DÉBITO", "CRÉDITO", "SALDO ATUAL",
   "CONSOLIDADO", "CPF:", "_______________________________________",
   "GILMIER", "CRISTIANI", "MIRI", "ZUCOLOTO", "NÚMERO LIVRO",
   "FOLHA:"].map String.data

def pageSkipLine (l : List Char) : Bool :=
  pageSkipKeys.any (fun k => containsSub (upperL l) k)

/-- Monetary matches of `parse_data_line` (`extract_pdf_v3.py`). -/
def monetaryOf (line : List Char) : List (Nat × List Char) :=
  let l := trim line
  scanAll tryMonEP (l.length + 1) none 0 l

/-- `parse_data_line` (`extract_pdf_v3.py`): the classification pattern has
no word boundaries, the bare-category branch and the account check only
require a non-empty cleaned name.  `parse_monetary_value` is textually
identical to `extract_pdf.py`'s, so `EP.pmv` is reused. -/
def parse_data_line (line : List Char) : Option Entry :=
  if line = [] || (trim line).length < 3 then none
  else
    let l := trim line
    if skipLine l then none
    else
      let ms := monetaryOf line
      match ms with
      | [] =>
        if 10 < l.length then
          let a := clean_account_name l
          if a ≠ [] then some (bareEntry a) else none
        else none
      | (s0, _) :: _ =>
        let vals := ms.map (·.2)
        let pfx := trim (l.take s0)
        match scanFirst (tryClass5 false) none pfx with
        | some (ci, cm) =>
          let code := (scanFirst tryCode46 none (trim (pfx.take ci))).map (·.2)
          let account := clean_account_name (trim (pfx.drop (ci + cm.length)))
          if account = [] then none
          else some (EP.assignValues
            { bareEntry account with code := code, classification := some cm } vals)
        | none =>
          match scanFirst tryCode46 none pfx with
          | some (cj, cd) =>
            let account := clean_account_name (trim (pfx.drop (cj + cd.length)))
            if account = [] then none
            else some (EP.assignValues
              { bareEntry account with code := some cd } vals)
          | none =>
            let account := clean_account_name (trim pfx)
            if account = [] then none
            else some (EP.assignValues (bareEntry account) vals)

/-- The line carries a five-segment classification pattern
(`re.search(r'\d+\.\d+\.\d+\.\d+\.\d+', line_text)` in the page loop). -/
def has5seg (l : List Char) : Bool :=
  (scanFirst (tryClass5 false) none l).isSome

/-- A reconstructed visual line: its text and the bold flag produced by
`reconstruct_text_from_chars`. -/
structure V3Line where
  text : List Char
  isBold : Bool
deriving Repr

/-- One iteration of the page loop of `extract_data_from_pdf`
(`extract_pdf_v3.py` lines 291..332).  A bold line without a five-segment
classification whose cleaned name is longer than 5 is pushed as a category
(record emitted with `parent_category = None`); every other line falls
through to the normal parse, whose record receives the stack top. -/
def step (stack : List (List Char)) (li : V3Line) :
    List (List Char) × List Entry :=
  let line := li.text
  if line = [] || (trim line).length < 3 then (stack, [])
  else if pageSkipLine line then (stack, [])
  else
    let cb := clean_account_name line
    if li.isBold && !has5seg line && cb ≠ [] && 5 < cb.length then
      let stack' := EP.categoryPush stack cb
      match parse_data_line line with
      | some e => (stack', [{ e with parent_category := none }])
      | none => (stack', [])
    else
      match parse_data_line line with
      | some e =>
        match stack.getLast? with
        | some p => (stack, [{ e with parent_category := some p }])
        | none => (stack, [e])
      | none => (stack, [])

def runFrom (stack : List (List Char)) (out : List Entry) :
    List V3Line → List (List Char) × List Entry
  | [] => (stack, out)
  | li :: rest =>
    let p := step stack li
    runFrom p.1 (out ++ p.2) rest

def run (lines : List V3Line) : List (List Char) × List Entry :=
  runFrom [] [] lines

end V3

/-- `dropWhile` never lengthens a list (termination helper). -/
theorem dropWhile_length_le (p : Char → Bool) (r : List Char) :
    (r.dropWhile p).length ≤ r.length := by
  induction r with
  | nil => simp [List.dropWhile]
  | cons c cs ih =>
    simp only [List.dropWhile]
    split
    · exact Nat.le_succ_of_le ih
    · simp

namespace V2

/-!  ## `extract_pdf_v2.py`  -/

/-- `re.split(r'\s{2,}', line)`: tokens separated by maximal whitespace
runs of length at least two; single whitespace characters stay inside
tokens, and empty tokens at the edges are kept (they are filtered later,
as in the source). -/
def split2Aux (acc : List Char) : List Char → List (List Char)
  | [] => [acc.reverse]
  | c :: r =>
    if isSpaceC c && (match r with | d :: _ => isSpaceC d | [] => false) then
      acc.reverse :: split2Aux [] (r.dropWhile isSpaceC)
    else split2Aux (c :: acc) r
termination_by ls => ls.length
decreasing_by
  all_goals simp only [List.length_cons]
  all_goals rename_i tl _
  · have := dropWhile_length_le isSpaceC tl
    omega
  · omega

def split2ws (ls : List Char) : List (List Char) := split2Aux [] ls

/-- A token fully matches `^\d+\.\d+\.\d+\.\d+\.\d+$`. -/
def isClass5Full (p : List Char) : Bool :=
  match tryClass5 false none p with
  | some m => m.length = p.length
  | none => false

/-- A token fully matches `^\d{4,6}$`. -/
def isCode46Full (p : List Char) : Bool :=
  4 ≤ p.length && p.length ≤ 6 && p.all isDigitC

/-- A token prefix-matches `^\d+\.\d+` (`re.match`). -/
def isDigitsDotPrefix (p : List Char) : Bool :=
  let L := digitRun p
  0 < L &&
    (match p.drop L with
     | '.' :: d :: _ => isDigitC d
     | _ => false)

/-- A token prefix-matches the monetary pattern
`[\d\.]+,\d{2}|[\d]+,\d{2}` (`re.match`). -/
def isMonPrefix (p : List Char) : Bool := (tryMonV2 none p).isSome

/-- `re.search(r'\d{4,}', line)`: some digit run of length at least 4. -/
def hasDigitRun4 : List Char → Bool
  | [] => false
  | c :: r => (4 ≤ digitRun (c :: r)) || hasDigitRun4 r

/-- The fallback tokenisation of `parse_line` (`extract_pdf_v2.py` lines
104..117).  It is reproduced literally, including the source's coordinate
mixing: the iterator positions refer to the original string while the
slices are taken from the progressively shortened `remaining`. -/
def fallbackAux : List (Nat × Nat × List Char) → List Char →
    List (List Char) → List (List Char)
  | [], remaining, parts =>
    parts ++ (if trim remaining = [] then [] else splitWS (trim remaining))
  | (s, e, m) :: ms, remaining, parts =>
    let before := trim (remaining.take s)
    let parts' := parts ++ (if before = [] then [] else splitWS before) ++ [m]
    fallbackAux ms (remaining.drop e) parts'

/-- Monetary matches with start/end offsets in the stripped line. -/
def monMatches (l : List Char) : List (Nat × Nat × List Char) :=
  (scanAll tryMonV2 (l.length + 1) none 0 l).map
    (fun p => (p.1, p.1 + p.2.length, p.2))

/-- The token list of `parse_line`: the two-space split, replaced by the
fallback when it yields fewer than three tokens, then stripped and
cleared of empties. -/
def partsOf (l : List Char) : List (List Char) :=
  let parts0 := split2ws l
  let parts1 := if parts0.length < 3 then fallbackAux (monMatches l) l [] else parts0
  (parts1.map trim).filter (fun p => p ≠ [])

/-- Index of the first token fully matching the classification pattern
(`parts.length` when there is none, as `findIdx`). -/
def classIdxOf (parts : List (List Char)) : Nat := parts.findIdx isClass5Full

/-- The classification token of `parse_line`. -/
def classificationOf (parts : List (List Char)) : Option (List Char) :=
  if h : classIdxOf parts < parts.length then some (parts.get ⟨classIdxOf parts, h⟩)
  else none

/-- The ledger-code token of `parse_line`: the first fully numeric 4-6
digit token, or — when a classification was found — the token right
before it. -/
def codeOf (parts : List (List Char)) : Option (List Char) :=
  match classificationOf parts with
  | none => parts.find? (fun p => isCode46Full p && !isDigitsDotPrefix p)
  | some _ =>
    if classIdxOf parts = 0 then none
    else
      match parts.get? (classIdxOf parts - 1) with
      | some p => if isCode46Full p then some p else none
      | none => none

/-- Indices of the tokens prefix-matching the monetary pattern. -/
def monetaryIndicesOf (parts : List (List Char)) : List Nat :=
  (List.range parts.length).filter (fun i => isMonPrefix (parts.getD i []))

/-- The account span's start: one past the first token equal to the code
(else to the classification), as in the source's find-and-break loops. -/
def startIdxOf (parts : List (List Char)) : Nat :=
  match codeOf parts with
  | some cd =>
    let i := parts.findIdx (fun p => p = cd)
    if i < parts.length then i + 1 else 0
  | none =>
    match classificationOf parts with
    | some cm =>
      let i := parts.findIdx (fun p => p = cm)
      if i < parts.length then i + 1 else 0
    | none => 0

/-- The account span's end: the first monetary token's index, else the
token count. -/
def endIdxOf (parts : List (List Char)) : Nat :=
  match monetaryIndicesOf parts with
  | [] => parts.length
  | i :: _ => i

/-- The joined account text of `parse_line`. -/
def accountOf (parts : List (List Char)) : List Char :=
  trim (joinSpace ((parts.drop (startIdxOf parts)).take
    (endIdxOf parts - startIdxOf parts)))

/-- The record-building tail of `parse_line` (`extract_pdf_v2.py` lines
122..208), on the cleaned token list. -/
def buildEntry (parts : List (List Char)) : Option Entry :=
  if parts.length < 3 then none
  else if accountOf parts = [] then none
  else
    let e0 :=
      { bareEntry (accountOf parts) with
          code := codeOf parts, classification := classificationOf parts }
    let mi := monetaryIndicesOf parts
    let slot := fun (k : Nat) => parts.getD (mi.getD k 0) []
    some
      (if 4 ≤ mi.length then
        { e0 with previous_balance := some (slot 0), debit := some (slot 1),
                  credit := some (slot 2), current_balance := some (slot 3) }
      else if mi.length = 3 then
        { e0 with previous_balance := some (slot 0), debit := some (slot 1),
                  credit := some (slot 2) }
      else if mi.length = 2 then
        { e0 with previous_balance := some (slot 0),
                  current_balance := some (slot 1) }
      else e0)

/-- `parse_line` (`extract_pdf_v2.py`).  The source checks
`if account = []` after computing the slots; the check is hoisted into
`buildEntry` unchanged (all the intermediate computations are pure). -/
def parse_line (line : List Char) : Option Entry :=
  if line = [] || (trim line).length < 5 then none
  else
    let l := trim line
    if (monMatches l).map (·.2.2) = [] then
      if 20 < l.length && !hasDigitRun4 l then some (bareEntry l) else none
    else buildEntry (partsOf l)

end V2

namespace FBP

/-!  ## `final_balancete_parser.py`  -/

/-- The monetary tokens of `parse_entry_line`
(`re.findall(r'-?\d{1,3}(?:\.\d{3})*,\d{2}', line)` on the stripped
line). -/
def valuesOf (line : List Char) : List (List Char) :=
  let l := trim line
  (scanAll tryMonFBP (l.length + 1) none 0 l).map (·.2)

/-- `re.match(r'^(\d{1,6})(?:\s|[A-ZÀ-Ú])', line)`: a maximal leading
digit run of length 1..6 followed by whitespace or an uppercase letter
(a longer run leaves a digit where the follower class is required, so
greedy matching is deterministic). -/
def codeOf (l : List Char) : Option (List Char) :=
  let L := digitRun l
  if 1 ≤ L && L ≤ 6 then
    match l.drop L with
    | c :: _ =>
      if isSpaceC c || ('A' ≤ c && c ≤ 'Z')
          || (0xC0 ≤ c.toNat && c.toNat ≤ 0xDA) then
        some (l.take L)
      else none
    | [] => none
  else none

/-- `max(valid, key=lambda x: x.count('.'))`: Python's `max` keeps the
first maximum. -/
def maxByDots : List (List Char) → Option (List Char)
  | [] => none
  | v :: rest =>
    some (rest.foldl (fun best x => if dotCount best < dotCount x then x else best) v)

/-- The classification extraction of `parse_entry_line`: all matches of
the bounded pattern, filtered to length ≤ 20 with at least two dots, the
most deeply dotted (first such) winning. -/
def classOf (l : List Char) : Option (List Char) :=
  let found := (scanAll tryClassFBP (l.length + 1) none 0 l).map (·.2)
  let valid := found.filter (fun c => c.length ≤ 20 && 2 ≤ dotCount c)
  maxByDots valid

/-- `re.sub(r'^\d{1,6}\s*', '', account, count=1)`: up to six leading
digits (greedily) and any following whitespace. -/
def stripLead16 (n : List Char) : List Char :=
  let L := digitRun n
  if 0 < L then
    let k := min 6 L
    n.drop (k + ((n.drop k).takeWhile isSpaceC).length)
  else n

/-- `\b\d+\.\d+\b` replaced by a space
(`extract_account_description`). -/
def tryDigitsDotDigits (prev : Option Char) (ls : List Char) :
    Option (List Char) :=
  if !boundaryB prev then none
  else
    let L1 := digitRun ls
    if L1 = 0 then none
    else
      match ls.drop L1 with
      | '.' :: r =>
        let L2 := digitRun r
        if 0 < L2 && boundaryAfter (r.drop L2) then
          some (ls.take (L1 + 1 + L2))
        else none
      | _ => none

/-- `\b\d{1,3}\b(?!\d)` replaced by a space: the lookahead is implied by
the trailing `\b` after digits and is kept only in this comment. -/
def tryDigits13 (prev : Option Char) (ls : List Char) : Option (List Char) :=
  if !boundaryB prev then none
  else
    let L := digitRun ls
    if 1 ≤ L && L ≤ 3 && boundaryAfter (ls.drop L) then some (ls.take L)
    else none

/-- Replace every match of `try_` by a single space (`re.sub(..., ' ')`). -/
def subSpace (try_ : Option Char → List Char → Option (List Char))
    (l : List Char) : List Char :=
  subScan (fun p r => (try_ p r).map (fun m => (m, [' ']))) (l.length + 1) none l

/-- `extract_account_description` (`final_balancete_parser.py`):
remove the code, every occurrence of the classification, the first
occurrence of each value, then residual dotted and short numbers.  The
result is not stripped here. -/
def extract_account_description (l : List Char) (code : Option (List Char))
    (classification : Option (List Char)) (vals : List (List Char)) :
    List Char :=
  let a1 := match code with
    | some _ => stripLead16 l
    | none => l
  let a2 := match classification with
    | some c => replaceAll a1 c [' ']
    | none => a1
  let a3 := vals.foldl (fun acc v => replaceFirst acc v [' ']) a2
  let a4 := subSpace tryDigitsDotDigits a3
  subSpace tryDigits13 a4

/-- The character class `[^\wÀ-ú\s\-,/().]` of `clean_description`:
everything outside it is kept, the rest becomes a space. -/
def allowedFBP (c : Char) : Bool :=
  isWordC c || (0xC0 ≤ c.toNat && c.toNat ≤ 0xFA) || isSpaceC c
    || c = '-' || c = ',' || c = '/' || c = '(' || c = ')' || c = '.'

def charSub (ls : List Char) : List Char :=
  ls.map (fun c => if allowedFBP c then c else ' ')

/-- Collapse whitespace and strip (`re.sub(r'\s+',' ',text).strip()`). -/
def normSpace (ls : List Char) : List Char := trim (collapse ls)

/-- The word filter of `clean_description`: keep the first and last word
and every middle word longer than two characters. -/
def keepMid : List (List Char) → List (List Char)
  | [] => []
  | [w] => [w]
  | w :: rest => if 2 < w.length then w :: keepMid rest else keepMid rest

def keepWords : List (List Char) → List (List Char)
  | [] => []
  | w :: rest => w :: keepMid rest

/-- Last element with a default (used for `words[-1]`). -/
def lastD (d : List Char) : List (List Char) → List Char
  | [] => d
  | [w] => w
  | _ :: w :: rest => lastD d (w :: rest)

/-- `clean_description` (`final_balancete_parser.py`): character-class
cleanup, whitespace normalisation, then the word pass.  Note that the
`words[0] == words[-1]` branch of the source is always overwritten by the
word filter (whose result contains the first word and is never empty);
it is reproduced nevertheless. -/
def clean_description (t0 : List Char) : List Char :=
  let t1 := charSub t0
  let t2 := normSpace t1
  let ws := splitWS t2
  let t3 :=
    match ws with
    | w0 :: w1 :: rest =>
      let lw := lastD w1 (w1 :: rest)
      let tA := if upperL w0 = upperL lw then lw else t2
      let cw := keepWords (w0 :: w1 :: rest)
      if cw = [] then tA else joinSpace cw
    | _ => t2
  trim t3

/-- The monetary-slot assignment block of `parse_entry_line`
(`final_balancete_parser.py` lines 196..209): the last four values for
four or more; `previous_balance`, `debit`, `current_balance` for three;
`debit`, `current_balance` for two; `current_balance` alone for one. -/
def assignValues (e : Entry) (vals : List (List Char)) : Entry :=
  let n := vals.length
  if 4 ≤ n then
    { e with previous_balance := some (vals.getD (n - 4) []),
             debit := some (vals.getD (n - 3) []),
             credit := some (vals.getD (n - 2) []),
             current_balance := some (vals.getD (n - 1) []) }
  else if n = 3 then
    { e with previous_balance := some (vals.getD 0 []),
             debit := some (vals.getD 1 []),
             current_balance := some (vals.getD 2 []) }
  else if n = 2 then
    { e with debit := some (vals.getD 0 []),
             current_balance := some (vals.getD 1 []) }
  else if n = 1 then
    { e with current_balance := some (vals.getD 0 []) }
  else e

/-- `parse_entry_line` (`final_balancete_parser.py`). -/
def parse_entry_line (line : List Char) : Option Entry :=
  let l := trim line
  let values := valuesOf line
  if values = [] then none
  else
    let code := codeOf l
    let classification := classOf l
    let account0 := extract_account_description l code classification values
    if account0 = [] || account0.length < 2 then none
    else
      let account := clean_description account0
      some (assignValues
        { bareEntry account with code := code, classification := classification }
        values)

/-- Character-wise match with `.` as a wildcard (for the handful of
`skip_line` patterns that contain regex dots). -/
def wildPrefix : List Char → List Char → Bool
  | [], _ => true
  | _ :: _, [] => false
  | p :: ps, c :: cs => (p = '.' || p = c) && wildPrefix ps cs

def wildSearch (pat l : List Char) : Bool :=
  (scanFirst (fun _ r => if wildPrefix pat r then some pat else none) none l).isSome

/-- `ATIVO.*PASSIVO.*RECEITAS`: the three literals occur in this order. -/
def seqSearch (a b c l : List Char) : Bool :=
  match findSub a l with
  | none => false
  | some i =>
    let r1 := l.drop (i + a.length)
    match findSub b r1 with
    | none => false
    | some j => containsSub (r1.drop (j + b.length)) c

/-- `skip_line` (`final_balancete_parser.py`): short lines and every line
matching one of the patterns (searched in the *unstripped* line, as in the
source; `^BALANCETE$` and `^_{4,}` are anchored, the patterns containing
dots treat them as wildcards). -/
def skip_line (line : List Char) : Bool :=
  if (trim line).length < 8 then true
  else
    containsSub line "Empresa:".data
    || wildSearch "C.N.P.J.".data line
    || containsSub line "Período:".data
    || containsSub line "Emissão:".data
    || containsSub line "Hora:".data
    || containsSub line "Folha:".data
    || containsSub line "CONSOLIDADO".data
    || containsSub line "livro:".data
    || containsSub line "Código Classificação".data
    || containsSub line "RESUMO DO BALANCETE".data
    || containsSub line "CONTAS DEVEDORAS".data
    || containsSub line "CONTAS CREDORAS".data
    || containsSub line "RESULTADO DO MES".data
    || containsSub line "RESULTADO DO EXERCÍCIO".data
    || seqSearch "ATIVO".data "PASSIVO".data "RECEITAS".data line
    || wildSearch "Reg. no CRC".data line
    || containsSub line "CPF:".data
    || line = "BALANCETE".data
    || line.take 4 = ['_', '_', '_', '_']

/-- Python `str.isupper` on the Latin-1 fragment: at least one cased
character and no lowercase cased character. -/
def isUpperPy (ls : List Char) : Bool :=
  ls.any isLetterC && ls.all (fun c => !isLetterC c || !(c.isLower || isAccentLowerC c))

/-- `is_category` (`final_balancete_parser.py`): non-empty account, all
uppercase, at most six words, and a classification (if any) with at most
two dots. -/
def is_category (e : Entry) : Bool :=
  if e.account = [] then false
  else
    isUpperPy e.account && (splitWS e.account).length ≤ 6
      && (match e.classification with
          | none => true
          | some c => dotCount c ≤ 2)

/-- One iteration of the line loop of `extract_data`
(`final_balancete_parser.py` lines 101..115): the parent-category state is
a single `Option`-valued variable, set to the account of every category
entry and attached to every non-category entry. -/
def step (cur : Option (List Char)) (line : List Char) :
    Option (List Char) × List Entry :=
  if skip_line line then (cur, [])
  else
    match parse_entry_line line with
    | none => (cur, [])
    | some e =>
      if is_category e then (some e.account, [e])
      else (cur, [{ e with parent_category := cur }])

def runFrom (cur : Option (List Char)) (out : List Entry) :
    List (List Char) → Option (List Char) × List Entry
  | [] => (cur, out)
  | line :: rest =>
    let p := step cur line
    runFrom p.1 (out ++ p.2) rest

/-- `extract_data` over a list of lines (the text-splitting shell is the
external collaborator). -/
def extract_data (lines : List (List Char)) : List Entry :=
  (runFrom none [] lines).2

end FBP

/-!  ## Spec-language predicates

The following predicates state properties in the language of the
specification (they are used to *state* claims, never inside the embedded
code). -/

/-- Split a string at every `'.'`. -/
def splitDotsAux (acc : List Char) : List Char → List (List Char)
  | [] => [acc.reverse]
  | '.' :: r => acc.reverse :: splitDotsAux [] r
  | c :: r => splitDotsAux (c :: acc) r

def splitDots (ls : List Char) : List (List Char) := splitDotsAux [] ls

/-- The spec's classification-code pattern `\d+(\.\d+){2,}` as a full
match: at least three dot-separated non-empty digit groups. -/
def specClass3 (s : List Char) : Bool :=
  let parts := splitDots s
  3 ≤ parts.length && parts.all (fun p => p ≠ [] && p.all isDigitC)

/-- Exactly five dot-separated non-empty digit groups (the shape of every
emitted classification field, claim C10). -/
def fiveSeg (s : List Char) : Bool :=
  let parts := splitDots s
  parts.length = 5 && parts.all (fun p => p ≠ [] && p.all isDigitC)

/-- Right trim (removal of trailing whitespace), the second half of
Python `str.strip()`. -/
def trimR (ls : List Char) : List Char :=
  (ls.reverse.dropWhile isSpaceC).reverse

/-- A word produced by `str.split()`: non-empty and free of whitespace. -/
def goodW (w : List Char) : Bool := !w.isEmpty && w.all (fun c => !isSpaceC c)

def goodWs (ws : List (List Char)) : Bool := ws.all goodW

/-!  ## Helper lemmas  -/

/-- Every record produced by `FBP.parse_entry_line` is the slot assignment
applied, over the line's monetary values, to a base record with empty
monetary slots. -/
theorem FBP_parse_shape {line : List Char} {e : Entry}
    (h : FBP.parse_entry_line line = some e) :
    ∃ b : Entry, e = FBP.assignValues b (FBP.valuesOf line) ∧
      b.previous_balance = none ∧ b.debit = none ∧ b.credit = none ∧
      b.current_balance = none ∧ b.parent_category = none := by
  simp only [FBP.parse_entry_line] at h
  split at h
  · exact absurd h (by simp)
  · split at h
    · exact absurd h (by simp)
    · rw [Option.some.injEq] at h
      subst h
      exact ⟨_, rfl, rfl, rfl, rfl, rfl, rfl⟩

/-- Every record produced by `EP.parse_data_line` is the slot assignment
applied, over the line's monetary values, to a base record with empty
monetary slots. -/
theorem EP_parse_shape {line : List Char} {e : Entry}
    (h : EP.parse_data_line line = some e) :
    ∃ b : Entry, e = EP.assignValues b ((EP.monetaryOf line).map (·.2)) ∧
      b.previous_balance = none ∧ b.debit = none ∧ b.credit = none ∧
      b.current_balance = none ∧ b.parent_category = none := by
  simp only [EP.parse_data_line] at h
  split at h
  · exact absurd h (by simp)
  · split at h
    · exact absurd h (by simp)
    · split at h
      · rename_i heq
        split at h
        · split at h
          · rw [Option.some.injEq] at h
            subst h
            refine ⟨bareEntry (EP.clean_account_name_final (trim line)), ?_,
              rfl, rfl, rfl, rfl, rfl⟩
            rw [heq]
            simp [EP.assignValues]
          · exact absurd h (by simp)
        · exact absurd h (by simp)
      · rename_i s0 v0 rest heq
        split at h
        · split at h
          · exact absurd h (by simp)
          · rw [Option.some.injEq] at h
            subst h
            exact ⟨_, rfl, rfl, rfl, rfl, rfl, rfl⟩
        · split at h
          · split at h
            · exact absurd h (by simp)
            · rw [Option.some.injEq] at h
              subst h
              exact ⟨_, rfl, rfl, rfl, rfl, rfl, rfl⟩
          · split at h
            · exact absurd h (by simp)
            · rw [Option.some.injEq] at h
              subst h
              exact ⟨_, rfl, rfl, rfl, rfl, rfl, rfl⟩

/-- The slot table actually implemented by `final_balancete_parser.py`. -/
theorem FBP_assign_slots (b : Entry) (vs : List (List Char))
    (hp : b.previous_balance = none) (hd : b.debit = none)
    (hc : b.credit = none) :
    (4 ≤ vs.length →
      (FBP.assignValues b vs).previous_balance = some (vs.getD (vs.length - 4) []) ∧
      (FBP.assignValues b vs).debit = some (vs.getD (vs.length - 3) []) ∧
      (FBP.assignValues b vs).credit = some (vs.getD (vs.length - 2) []) ∧
      (FBP.assignValues b vs).current_balance = some (vs.getD (vs.length - 1) [])) ∧
    (vs.length = 3 →
      (FBP.assignValues b vs).previous_balance = some (vs.getD 0 []) ∧
      (FBP.assignValues b vs).debit = some (vs.getD 1 []) ∧
      (FBP.assignValues b vs).current_balance = some (vs.getD 2 []) ∧
      (FBP.assignValues b vs).credit = none) ∧
    (vs.length = 2 →
      (FBP.assignValues b vs).debit = some (vs.getD 0 []) ∧
      (FBP.assignValues b vs).current_balance = some (vs.getD 1 []) ∧
      (FBP.assignValues b vs).previous_balance = none ∧
      (FBP.assignValues b vs).credit = none) ∧
    (vs.length = 1 →
      (FBP.assignValues b vs).current_balance = some (vs.getD 0 []) ∧
      (FBP.assignValues b vs).previous_balance = none ∧
      (FBP.assignValues b vs).debit = none ∧
      (FBP.assignValues b vs).credit = none) := by
  refine ⟨fun h4 => ?_, fun h3 => ?_, fun h2 => ?_, fun h1 => ?_⟩
  · simp [FBP.assignValues, h4]
  · simp [FBP.assignValues, h3, hc]
  · simp [FBP.assignValues, h2, hp, hc]
  · simp [FBP.assignValues, h1, hp, hd, hc]

/-- The slot table actually implemented by `extract_pdf.py` (the *first*
four values when four or more are present). -/
theorem EP_assign_slots (b : Entry) (vs : List (List Char))
    (hp : b.previous_balance = none) (hd : b.debit = none)
    (hc : b.credit = none) (hb : b.current_balance = none) :
    (4 ≤ vs.length →
      (EP.assignValues b vs).previous_balance = EP.pmv (vs.getD 0 []) ∧
      (EP.assignValues b vs).debit = EP.pmv (vs.getD 1 []) ∧
      (EP.assignValues b vs).credit = EP.pmv (vs.getD 2 []) ∧
      (EP.assignValues b vs).current_balance = EP.pmv (vs.getD 3 [])) ∧
    (vs.length = 3 →
      (EP.assignValues b vs).previous_balance = EP.pmv (vs.getD 0 []) ∧
      (EP.assignValues b vs).debit = EP.pmv (vs.getD 1 []) ∧
      (EP.assignValues b vs).credit = EP.pmv (vs.getD 2 []) ∧
      (EP.assignValues b vs).current_balance = none) ∧
    (vs.length = 2 →
      (EP.assignValues b vs).previous_balance = EP.pmv (vs.getD 0 []) ∧
      (EP.assignValues b vs).current_balance = EP.pmv (vs.getD 1 []) ∧
      (EP.assignValues b vs).debit = none ∧
      (EP.assignValues b vs).credit = none) ∧
    (vs.length = 1 →
      (EP.assignValues b vs).current_balance = EP.pmv (vs.getD 0 []) ∧
      (EP.assignValues b vs).previous_balance = none ∧
      (EP.assignValues b vs).debit = none ∧
      (EP.assignValues b vs).credit = none) := by
  refine ⟨fun h4 => ?_, fun h3 => ?_, fun h2 => ?_, fun h1 => ?_⟩
  · simp [EP.assignValues, h4]
  · simp [EP.assignValues, h3, hb]
  · simp [EP.assignValues, h2, hd, hc]
  · simp [EP.assignValues, h1, hp, hd, hc]

/-!  ## Claims  -/

/-- C1, counterexample.  The claim's fixed table demands that a line with
exactly two monetary tokens sets `previous_balance := V[0]` and
`current_balance := V[1]` with `debit` empty.  On
`"CAIXA GERAL 100,00 200,00"` (two tokens), `final_balancete_parser.py`'s
`parse_entry_line` instead sets `debit := V[0]` and leaves
`previous_balance` empty. -/
theorem C1_counterexample :
    FBP.valuesOf "CAIXA GERAL 100,00 200,00".data =
      ["100,00".data, "200,00".data] ∧
    FBP.parse_entry_line "CAIXA GERAL 100,00 200,00".data =
      some { code := none, classification := none, account := "CAIXA GERAL".data,
             previous_balance := none, debit := some "100,00".data,
             credit := none, current_balance := some "200,00".data,
             parent_category := none } := by
  constructor
  · rfl
  · rfl

/-- C1, amended.  The two line parsers assign the monetary slots by two
*different* fixed tables.  `final_balancete_parser.py`: n ≥ 4 takes the
last four as `previous_balance`/`debit`/`credit`/`current_balance`; n = 3
sets `previous_balance`/`debit`/`current_balance` (not `credit`); n = 2
sets `debit`/`current_balance` (not `previous_balance`); n = 1 sets only
`current_balance`.  `extract_pdf.py`: n ≥ 4 takes the *first* four (not
the last four); n = 3 sets `previous_balance`/`debit`/`credit`; n = 2 sets
`previous_balance`/`current_balance`; n = 1 sets only `current_balance`
(each value passed through `parse_monetary_value`).  Unassigned slots are
null. -/
theorem C1_slot_assignment :
    (∀ line e, FBP.parse_entry_line line = some e →
      (4 ≤ (FBP.valuesOf line).length →
        e.previous_balance =
          some ((FBP.valuesOf line).getD ((FBP.valuesOf line).length - 4) []) ∧
        e.debit =
          some ((FBP.valuesOf line).getD ((FBP.valuesOf line).length - 3) []) ∧
        e.credit =
          some ((FBP.valuesOf line).getD ((FBP.valuesOf line).length - 2) []) ∧
        e.current_balance =
          some ((FBP.valuesOf line).getD ((FBP.valuesOf line).length - 1) [])) ∧
      ((FBP.valuesOf line).length = 3 →
        e.previous_balance = some ((FBP.valuesOf line).getD 0 []) ∧
        e.debit = some ((FBP.valuesOf line).getD 1 []) ∧
        e.current_balance = some ((FBP.valuesOf line).getD 2 []) ∧
        e.credit = none) ∧
      ((FBP.valuesOf line).length = 2 →
        e.debit = some ((FBP.valuesOf line).getD 0 []) ∧
        e.current_balance = some ((FBP.valuesOf line).getD 1 []) ∧
        e.previous_balance = none ∧ e.credit = none) ∧
      ((FBP.valuesOf line).length = 1 →
        e.current_balance = some ((FBP.valuesOf line).getD 0 []) ∧
        e.previous_balance = none ∧ e.debit = none ∧ e.credit = none)) ∧
    (∀ line e, EP.parse_data_line line = some e →
      (4 ≤ ((EP.monetaryOf line).map (·.2)).length →
        e.previous_balance = EP.pmv (((EP.monetaryOf line).map (·.2)).getD 0 []) ∧
        e.debit = EP.pmv (((EP.monetaryOf line).map (·.2)).getD 1 []) ∧
        e.credit = EP.pmv (((EP.monetaryOf line).map (·.2)).getD 2 []) ∧
        e.current_balance = EP.pmv (((EP.monetaryOf line).map (·.2)).getD 3 [])) ∧
      (((EP.monetaryOf line).map (·.2)).length = 3 →
        e.previous_balance = EP.pmv (((EP.monetaryOf line).map (·.2)).getD 0 []) ∧
        e.debit = EP.pmv (((EP.monetaryOf line).map (·.2)).getD 1 []) ∧
        e.credit = EP.pmv (((EP.monetaryOf line).map (·.2)).getD 2 []) ∧
        e.current_balance = none) ∧
      (((EP.monetaryOf line).map (·.2)).length = 2 →
        e.previous_balance = EP.pmv (((EP.monetaryOf line).map (·.2)).getD 0 []) ∧
        e.current_balance = EP.pmv (((EP.monetaryOf line).map (·.2)).getD 1 []) ∧
        e.debit = none ∧ e.credit = none) ∧
      (((EP.monetaryOf line).map (·.2)).length = 1 →
        e.current_balance = EP.pmv (((EP.monetaryOf line).map (·.2)).getD 0 []) ∧
        e.previous_balance = none ∧ e.debit = none ∧ e.credit = none)) := by
  constructor
  · intro line e h
    obtain ⟨b, he, hp, hd, hc, _, _⟩ := FBP_parse_shape h
    subst he
    exact FBP_assign_slots b (FBP.valuesOf line) hp hd hc
  · intro line e h
    obtain ⟨b, he, hp, hd, hc, hb, _⟩ := EP_parse_shape h
    subst he
    exact EP_assign_slots b ((EP.monetaryOf line).map (·.2)) hp hd hc hb

/-- C1, witness: `C1_slot_assignment` applied to one concrete five-value
line per parser (`final_balancete_parser.py` keeps the last four,
`extract_pdf.py` the first four). -/
theorem C1_slot_assignment_witness :
    FBP.parse_entry_line "BANCOS 1,00 2,00 3,00 4,00 5,00".data =
      some { code := none, classification := none, account := "BANCOS".data,
             previous_balance := some "2,00".data, debit := some "3,00".data,
             credit := some "4,00".data, current_balance := some "5,00".data,
             parent_category := none } ∧
    ({ code := none, classification := none, account := "BANCOS".data,
       previous_balance := some "2,00".data, debit := some "3,00".data,
       credit := some "4,00".data, current_balance := some "5,00".data,
       parent_category := none : Entry }).previous_balance = some "2,00".data ∧
    EP.parse_data_line "CAIXA 1,00 2,00 3,00 4,00 5,00".data =
      some { code := none, classification := none, account := "CAIXA".data,
             previous_balance := some "1,00".data, debit := some "2,00".data,
             credit := some "3,00".data, current_balance := some "4,00".data,
             parent_category := none } ∧
    ({ code := none, classification := none, account := "CAIXA".data,
       previous_balance := some "1,00".data, debit := some "2,00".data,
       credit := some "3,00".data, current_balance := some "4,00".data,
       parent_category := none : Entry }).previous_balance = some "1,00".data := by
  have hB : FBP.parse_entry_line "BANCOS 1,00 2,00 3,00 4,00 5,00".data =
      some { code := none, classification := none, account := "BANCOS".data,
             previous_balance := some "2,00".data, debit := some "3,00".data,
             credit := some "4,00".data, current_balance := some "5,00".data,
             parent_category := none } := by rfl
  have hE : EP.parse_data_line "CAIXA 1,00 2,00 3,00 4,00 5,00".data =
      some { code := none, classification := none, account := "CAIXA".data,
             previous_balance := some "1,00".data, debit := some "2,00".data,
             credit := some "3,00".data, current_balance := some "4,00".data,
             parent_category := none } := by rfl
  refine ⟨hB, ?_, hE, ?_⟩
  · have h := ((C1_slot_assignment.1 _ _ hB).1 (by decide)).1
    rw [h]
    decide
  · have h := ((C1_slot_assignment.2 _ _ hE).1 (by decide)).1
    rw [h]
    decide

/-- C5, counterexample.  The claim demands that every trimmed zero-token
line longer than 10 characters yields a bare-category record.
`final_balancete_parser.py`'s `parse_entry_line` rejects *every* line
without monetary tokens: on the 12-character line `"AAAAAAAAAAAA"` it
returns null. -/
theorem C5_counterexample :
    FBP.valuesOf "AAAAAAAAAAAA".data = [] ∧
    10 < (trim "AAAAAAAAAAAA".data).length ∧
    FBP.parse_entry_line "AAAAAAAAAAAA".data = none := by
  refine ⟨rfl, by decide, rfl⟩

/-- C5, amended.  Zero-token handling differs per parser:
`final_balancete_parser.py` rejects every zero-token line;
`extract_pdf.py` rejects when the trimmed line has at most 10 characters
and otherwise returns the bare-category record exactly when the line is
not a skip line and the normalized name is non-empty with more than 3
characters; `extract_pdf_final.py` uses threshold 15 (on the
control-character-normalised line) and returns the bare record with no
guard on the normalized name. -/
theorem C5_zero_token_lines :
    (∀ l, FBP.valuesOf l = [] → FBP.parse_entry_line l = none) ∧
    (∀ l, EP.monetaryOf l = [] → (trim l).length ≤ 10 →
      EP.parse_data_line l = none) ∧
    (∀ l, EP.monetaryOf l = [] → ¬(l = [] ∨ (trim l).length < 3) →
      ¬EP.skipLine (trim l) = true → 10 < (trim l).length →
      EP.parse_data_line l =
        (if EP.clean_account_name_final (trim l) ≠ [] &&
            3 < (EP.clean_account_name_final (trim l)).length then
          some (bareEntry (EP.clean_account_name_final (trim l)))
        else none)) ∧
    (∀ l, EPF.monetaryOf l = [] → (EPF.clean_text l).length ≤ 15 →
      EPF.parse_data_line l = none) ∧
    (∀ l, EPF.monetaryOf l = [] → ¬(l = [] ∨ (trim l).length < 5) →
      ¬EPF.skipLine (EPF.clean_text l) = true → 15 < (EPF.clean_text l).length →
      EPF.parse_data_line l =
        some (bareEntry (EPF.clean_account_name (EPF.clean_text l)))) := by
  refine ⟨?_, ?_, ?_, ?_, ?_⟩
  · intro l h
    simp [FBP.parse_entry_line, h]
  · intro l h hlen
    simp only [EP.parse_data_line]
    split
    · rfl
    · split
      · rfl
      · rw [h]
        simp only []
        split
        · omega
        · rfl
  · intro l h hne hskip hlen
    simp only [EP.parse_data_line]
    have hc1 : ¬((l = [] || decide ((trim l).length < 3)) = true) := by
      simpa using hne
    rw [if_neg hc1, if_neg hskip, h]
    simp only []
    rw [if_pos hlen]
  · intro l h hlen
    simp only [EPF.parse_data_line]
    split
    · rfl
    · split
      · rfl
      · rw [h]
        simp only []
        split
        · omega
        · rfl
  · intro l h hne hskip hlen
    simp only [EPF.parse_data_line]
    have hc1 : ¬((l = [] || decide ((trim l).length < 5)) = true) := by
      simpa using hne
    rw [if_neg hc1, if_neg hskip, h]
    simp only []
    rw [if_pos hlen]

/-- C5, witness: `C5_zero_token_lines` applied to concrete zero-token
lines for each parser and branch. -/
theorem C5_zero_token_lines_witness :
    FBP.parse_entry_line "SEM VALORES AQUI".data = none ∧
    EP.parse_data_line "TINY".data = none ∧
    EP.parse_data_line "CONTAS GERAIS TOTAIS".data =
      some (bareEntry "CONTAS GERAIS TOTAIS".data) ∧
    EPF.parse_data_line "CURTO DEMAIS".data = none ∧
    EPF.parse_data_line "CONTAS GERAIS DIVERSAS X".data =
      some (bareEntry "CONTAS GERAIS DIVERSAS X".data) := by
  refine ⟨C5_zero_token_lines.1 _ (by rfl),
    C5_zero_token_lines.2.1 _ (by rfl) (by decide), ?_,
    C5_zero_token_lines.2.2.2.1 _ (by rfl) (by decide), ?_⟩
  · have h := C5_zero_token_lines.2.2.1 "CONTAS GERAIS TOTAIS".data (by rfl)
      (by decide) (by decide) (by decide)
    rw [h]
    decide
  · have h := C5_zero_token_lines.2.2.2.2 "CONTAS GERAIS DIVERSAS X".data (by rfl)
      (by decide) (by decide) (by decide)
    rw [h]
    decide

/-- The directional invariant preserved by the category-stack update: no
entry is a case-insensitive prefix of a *later* entry. -/
theorem categoryPush_pairwise {stack : List (List Char)} {name : List Char}
    (h : stack.Pairwise (fun a b => isPrefixCI a b = false)) :
    (EP.categoryPush stack name).Pairwise (fun a b => isPrefixCI a b = false) := by
  unfold EP.categoryPush
  rw [List.pairwise_append]
  refine ⟨h.filter _, List.pairwise_singleton _ _, ?_⟩
  intro a ha b hb
  rw [List.mem_singleton] at hb
  subst hb
  have := List.of_mem_filter ha
  simpa using this

/-- Each `extract_pdf.py` page-loop iteration either keeps the stack or
pushes one category. -/
theorem EP_step_stack (stack : List (List Char)) (li : EP.PageLine) :
    (EP.step stack li).1 = stack ∨
    ∃ cb, (EP.step stack li).1 = EP.categoryPush stack cb := by
  simp only [EP.step]
  split
  · exact Or.inl rfl
  · split
    · exact Or.inl rfl
    · split
      · rename_i cb _
        split
        · exact Or.inr ⟨cb, rfl⟩
        · exact Or.inr ⟨cb, rfl⟩
      · split
        · split
          · exact Or.inl rfl
          · exact Or.inl rfl
        · exact Or.inl rfl

/-- Each `extract_pdf_v3.py` page-loop iteration either keeps the stack or
pushes one category. -/
theorem V3_step_stack (stack : List (List Char)) (li : V3.V3Line) :
    (V3.step stack li).1 = stack ∨
    ∃ cb, (V3.step stack li).1 = EP.categoryPush stack cb := by
  simp only [V3.step]
  split
  · exact Or.inl rfl
  · split
    · exact Or.inl rfl
    · split
      · split
        · exact Or.inr ⟨_, rfl⟩
        · exact Or.inr ⟨_, rfl⟩
      · split
        · split
          · exact Or.inl rfl
          · exact Or.inl rfl
        · exact Or.inl rfl

theorem EP_runFrom_pairwise : ∀ (lines : List EP.PageLine) stack out,
    stack.Pairwise (fun a b => isPrefixCI a b = false) →
    (EP.runFrom stack out lines).1.Pairwise (fun a b => isPrefixCI a b = false) := by
  intro lines
  induction lines with
  | nil => intro stack out h; exact h
  | cons li rest ih =>
    intro stack out h
    simp only [EP.runFrom]
    apply ih
    rcases EP_step_stack stack li with heq | ⟨cb, heq⟩
    · rw [heq]; exact h
    · rw [heq]; exact categoryPush_pairwise h

theorem V3_runFrom_pairwise : ∀ (lines : List V3.V3Line) stack out,
    stack.Pairwise (fun a b => isPrefixCI a b = false) →
    (V3.runFrom stack out lines).1.Pairwise (fun a b => isPrefixCI a b = false) := by
  intro lines
  induction lines with
  | nil => intro stack out h; exact h
  | cons li rest ih =>
    intro stack out h
    simp only [V3.runFrom]
    apply ih
    rcases V3_step_stack stack li with heq | ⟨cb, heq⟩
    · rw [heq]; exact h
    · rw [heq]; exact categoryPush_pairwise h

/-- C2, counterexample.  The claim's invariant — the stack never holds two
entries where one is a case-insensitive prefix of the other — fails: the
stack update only removes entries that are prefixes *of the new name*.
Processing the bold category `"PASSIVO TOTAL"` and then the bold category
`"PASSIVO"` through `extract_pdf.py`'s page loop leaves the stack
`["PASSIVO TOTAL", "PASSIVO"]`, whose second entry is a case-insensitive
prefix of its first. -/
theorem C2_counterexample :
    (EP.run [{ text := "PASSIVO TOTAL".data, boldCands := ["PASSIVO TOTAL".data] },
             { text := "PASSIVO".data, boldCands := ["PASSIVO".data] }]).1 =
      ["PASSIVO TOTAL".data, "PASSIVO".data] ∧
    isPrefixCI "PASSIVO".data "PASSIVO TOTAL".data = true := by
  exact ⟨rfl, rfl⟩

/-- C2, amended.  Every push removes exactly the existing entries that are
case-insensitive prefixes of the new name (so after a push no remaining
entry other than the new name itself is a prefix of it), and the invariant
that holds after every processed line — in both `extract_pdf.py` and
`extract_pdf_v3.py` — is directional: no stack entry is a
case-insensitive prefix of an entry pushed *later*.  A later (shorter)
entry may still be a prefix of an earlier one. -/
theorem C2_stack_invariant :
    (∀ stack name c, c ∈ EP.categoryPush stack name →
      isPrefixCI c name = false ∨ c = name) ∧
    (∀ lines : List EP.PageLine,
      (EP.run lines).1.Pairwise (fun a b => isPrefixCI a b = false)) ∧
    (∀ lines : List V3.V3Line,
      (V3.run lines).1.Pairwise (fun a b => isPrefixCI a b = false)) := by
  refine ⟨?_, ?_, ?_⟩
  · intro stack name c hc
    unfold EP.categoryPush at hc
    rcases List.mem_append.1 hc with hc | hc
    · have := List.of_mem_filter hc
      left
      simpa using this
    · right
      simpa using hc
  · intro lines
    exact EP_runFrom_pairwise lines [] [] (List.Pairwise.nil)
  · intro lines
    exact V3_runFrom_pairwise lines [] [] (List.Pairwise.nil)

/-- C2, witness: `C2_stack_invariant` applied to a concrete push (the
survivor `"CONTAS"` of a push of `"CONTAS GERAIS"` is not a prefix
conflict: the membership hypothesis is discharged on a concrete stack). -/
theorem C2_stack_invariant_witness :
    isPrefixCI "XCAIXA".data "CONTAS".data = false ∨ "XCAIXA".data = "CONTAS".data := by
  exact C2_stack_invariant.1 ["XCAIXA".data] "CONTAS".data "XCAIXA".data (by decide)

/-- The slot-assignment block never touches `parent_category`
(`extract_pdf.py`). -/
theorem EP_assign_parent (b : Entry) (vs : List (List Char)) :
    (EP.assignValues b vs).parent_category = b.parent_category := by
  simp only [EP.assignValues]
  split_ifs <;> rfl

/-- The slot-assignment block never touches `parent_category`
(`final_balancete_parser.py`). -/
theorem FBP_assign_parent (b : Entry) (vs : List (List Char)) :
    (FBP.assignValues b vs).parent_category = b.parent_category := by
  simp only [FBP.assignValues]
  split_ifs <;> rfl

/-- `EP.parse_data_line` always emits `parent_category = none`. -/
theorem EP_parse_parent {line : List Char} {e : Entry}
    (h : EP.parse_data_line line = some e) : e.parent_category = none := by
  obtain ⟨b, he, _, _, _, _, hpar⟩ := EP_parse_shape h
  subst he
  rw [EP_assign_parent]
  exact hpar

/-- `FBP.parse_entry_line` always emits `parent_category = none`. -/
theorem FBP_parse_parent {line : List Char} {e : Entry}
    (h : FBP.parse_entry_line line = some e) : e.parent_category = none := by
  obtain ⟨b, he, _, _, _, _, hpar⟩ := FBP_parse_shape h
  subst he
  rw [FBP_assign_parent]
  exact hpar

/-- C3, confirmed.  In `extract_pdf.py`'s page loop, every record emitted
from a line recognised as a bold category has `parent_category = none`,
and every record emitted from any other line carries the stack top at that
moment (`none` when the stack is empty; the stack top is the *last*
element, as categories are appended).  In `final_balancete_parser.py`'s
document pass, every emitted record that `is_category` accepts has
`parent_category = none`, and every other emitted record carries the
current parent variable. -/
theorem C3_parent_assignment :
    (∀ stack li e, e ∈ (EP.step stack li).2 →
      (EP.findCategory li.boldCands (trim li.text) ≠ none →
        e.parent_category = none) ∧
      (EP.findCategory li.boldCands (trim li.text) = none →
        e.parent_category = stack.getLast?)) ∧
    (∀ cur line e, e ∈ (FBP.step cur line).2 →
      (FBP.is_category e = true → e.parent_category = none) ∧
      (FBP.is_category e = false → e.parent_category = cur)) := by
  constructor
  · intro stack li e he
    simp only [EP.step] at he
    split at he
    · exact absurd he (by simp)
    · split at he
      · exact absurd he (by simp)
      · split at he
        · rename_i cb hcat
          split at he
          · rw [List.mem_singleton] at he
            subst he
            exact ⟨fun _ => rfl, fun hc => absurd hc (by rw [hcat]; simp)⟩
          · exact absurd he (by simp)
        · rename_i hcat
          split at he
          · rename_i e0 hparse
            split at he
            · rename_i p hlast
              rw [List.mem_singleton] at he
              subst he
              refine ⟨?_, fun _ => by rw [hlast]⟩
              intro hne
              exact absurd hcat hne
            · rename_i hlast
              rw [List.mem_singleton] at he
              subst he
              refine ⟨fun hne => absurd hcat hne, fun _ => ?_⟩
              rw [hlast]
              exact EP_parse_parent hparse
          · exact absurd he (by simp)
  · intro cur line e he
    simp only [FBP.step] at he
    split at he
    · exact absurd he (by simp)
    · split at he
      · exact absurd he (by simp)
      · rename_i e0 hparse
        split at he
        · rename_i hcat
          rw [List.mem_singleton] at he
          subst he
          refine ⟨fun _ => FBP_parse_parent hparse, fun hfalse => ?_⟩
          rw [hcat] at hfalse
          exact absurd hfalse (by simp)
        · rename_i hcat
          rw [List.mem_singleton] at he
          subst he
          constructor
          · intro htrue
            have : FBP.is_category e0 = true := htrue
            rw [this] at hcat
            exact absurd rfl hcat
          · intro _
            rfl

/-- C3, witness: `C3_parent_assignment` applied to one concrete category
line and one concrete detail line per implementation. -/
theorem C3_parent_assignment_witness :
    (bareEntry "PASSIVO GERAL".data).parent_category = none ∧
    ({ code := none, classification := none, account := "CAIXA".data,
       previous_balance := none, debit := none, credit := none,
       current_balance := some "1,00".data,
       parent_category := some "PASSIVO GERAL".data : Entry }).parent_category
      = (["PASSIVO GERAL".data]).getLast? ∧
    ({ code := none, classification := none, account := "ATIVO TOTAL".data,
       previous_balance := none, debit := none, credit := none,
       current_balance := some "1,00".data,
       parent_category := none : Entry }).parent_category = none ∧
    ({ code := none, classification := none, account := "caixa geral".data,
       previous_balance := none, debit := none, credit := none,
       current_balance := some "1,00".data,
       parent_category := some "ATIVO TOTAL".data : Entry }).parent_category
      = some "ATIVO TOTAL".data := by
  refine ⟨?_, ?_, ?_, ?_⟩
  · exact (C3_parent_assignment.1 []
      { text := "PASSIVO GERAL".data, boldCands := ["PASSIVO GERAL".data] }
      _ (by decide)).1 (by decide)
  · exact (C3_parent_assignment.1 ["PASSIVO GERAL".data]
      { text := "CAIXA 1,00".data, boldCands := [] }
      _ (by decide)).2 (by decide)
  · exact (C3_parent_assignment.2 none "ATIVO TOTAL 1,00".data
      _ (by decide)).1 (by decide)
  · exact (C3_parent_assignment.2 (some "ATIVO TOTAL".data) "caixa geral 1,00".data
      _ (by decide)).2 (by decide)

/-- In `final_balancete_parser.py`'s document pass, a non-category record
emitted by one step carries the current parent variable. -/
theorem FBP_step_detail {cur : Option (List Char)} {l : List Char} {e : Entry}
    (he : e ∈ (FBP.step cur l).2) (hcat : FBP.is_category e = false) :
    e.parent_category = cur := by
  simp only [FBP.step] at he
  split at he
  · exact absurd he (by simp)
  · split at he
    · exact absurd he (by simp)
    · rename_i e0 hparse
      split at he
      · rename_i hc
        rw [List.mem_singleton] at he
        subst he
        rw [hc] at hcat
        exact absurd hcat (by simp)
      · rw [List.mem_singleton] at he
        subst he
        rfl

/-- In `final_balancete_parser.py`'s document pass, a category record sets
the parent variable to its own account. -/
theorem FBP_step_category {cur : Option (List Char)} {l : List Char} {e : Entry}
    (he : e ∈ (FBP.step cur l).2) (hcat : FBP.is_category e = true) :
    (FBP.step cur l).1 = some e.account := by
  by_cases h1 : FBP.skip_line l = true
  · simp [FBP.step, h1] at he
  · cases hp : FBP.parse_entry_line l with
    | none => simp [FBP.step, h1, hp] at he
    | some e0 =>
      by_cases hc : FBP.is_category e0 = true
      · simp [FBP.step, h1, hp, hc] at he ⊢
        subst he
        rfl
      · simp [FBP.step, h1, hp, hc] at he
        subst he
        have heq : FBP.is_category { e0 with parent_category := cur }
            = FBP.is_category e0 := rfl
        rw [heq, (by simpa using hc : FBP.is_category e0 = false)] at hcat
        exact absurd hcat (by simp)

/-- C9, confirmed.  `final_balancete_parser.py`'s parent state is one
`Option`-valued variable: it is never cleared once set (first conjunct);
a category record overwrites it with its own account (second conjunct);
every non-category record emitted by a step receives the variable's
current value (third conjunct); and once any category has been seen, no
later non-category record in the whole pass has a null `parent_category`
(fourth conjunct). -/
theorem C9_single_parent_variable :
    (∀ cur l, cur ≠ none → (FBP.step cur l).1 ≠ none) ∧
    (∀ cur l e, e ∈ (FBP.step cur l).2 → FBP.is_category e = true →
      (FBP.step cur l).1 = some e.account) ∧
    (∀ cur l e, e ∈ (FBP.step cur l).2 → FBP.is_category e = false →
      e.parent_category = cur) ∧
    (∀ lines p e, e ∈ (FBP.runFrom (some p) [] lines).2 →
      FBP.is_category e = false → e.parent_category ≠ none) := by
  have hkeep : ∀ (cur : Option (List Char)) l, cur ≠ none →
      (FBP.step cur l).1 ≠ none := by
    intro cur l hne
    simp only [FBP.step]
    split
    · exact hne
    · split
      · exact hne
      · split
        · simp
        · exact hne
  have hstep : ∀ (cur : Option (List Char)) l, cur ≠ none →
      ∀ e ∈ (FBP.step cur l).2, FBP.is_category e = false →
        e.parent_category ≠ none := by
    intro cur l hne e he hcat
    rw [FBP_step_detail he hcat]
    exact hne
  have hfold : ∀ (lines : List (List Char)) (cur : Option (List Char))
      (out : List Entry), cur ≠ none →
      (∀ e ∈ out, FBP.is_category e = false → e.parent_category ≠ none) →
      ∀ e ∈ (FBP.runFrom cur out lines).2,
        FBP.is_category e = false → e.parent_category ≠ none := by
    intro lines
    induction lines with
    | nil => intro cur out hne hout e he; exact hout e he
    | cons l rest ih =>
      intro cur out hne hout e he
      simp only [FBP.runFrom] at he
      refine ih _ _ (hkeep cur l hne) ?_ e he
      intro e' he' hcat'
      rcases List.mem_append.1 he' with h | h
      · exact hout e' h hcat'
      · exact hstep cur l hne e' h hcat'
  refine ⟨hkeep, fun cur l e he hc => FBP_step_category he hc,
    fun cur l e he hc => FBP_step_detail he hc, ?_⟩
  intro lines p e he hcat
  exact hfold lines (some p) [] (by simp) (by simp) e he hcat

/-- C9, witness: `C9_single_parent_variable` applied to a concrete pass
that sees the category `"ATIVO TOTAL"` and then a detail line. -/
theorem C9_single_parent_variable_witness :
    (FBP.step (some "ATIVO TOTAL".data) "caixa geral 1,00".data).1 ≠ none ∧
    ({ code := none, classification := none, account := "caixa geral".data,
       previous_balance := none, debit := none, credit := none,
       current_balance := some "1,00".data,
       parent_category := some "ATIVO TOTAL".data : Entry }).parent_category
      ≠ none := by
  constructor
  · exact C9_single_parent_variable.1 (some "ATIVO TOTAL".data)
      "caixa geral 1,00".data (by simp)
  · exact C9_single_parent_variable.2.2.2 ["caixa geral 1,00".data]
      "ATIVO TOTAL".data _ (by decide) (by decide)

/-- C6, counterexample.  The claim forbids pushing any line that carries a
classification code of depth ≥ 3.  `extract_pdf_v3.py` only blocks
*five-segment* codes: the bold line `"1.1.01 RESERVAS TOTAIS"`, which
carries the depth-3 classification code `"1.1.01"` (the claim's pattern
`\d+(\.\d+){2,}`), is pushed onto the category stack. -/
theorem C6_counterexample :
    specClass3 "1.1.01".data = true ∧
    containsSub "1.1.01 RESERVAS TOTAIS".data "1.1.01".data = true ∧
    (V3.step [] { text := "1.1.01 RESERVAS TOTAIS".data, isBold := true }).1 =
      ["1.1.01 RESERVAS TOTAIS".data] := by
  exact ⟨rfl, rfl, rfl⟩

/-- C6, amended.  In `extract_pdf_v3.py` a line is pushed as a category
iff it is bold, carries *no five-segment* dotted code, and its cleaned
name is longer than 5 characters (dotted codes of depth 3 or 4 do not
block the push); a line with a five-segment code, or a non-bold line, is
never pushed.  In `final_balancete_parser.py` an entry is a category iff
its account is non-empty, all uppercase, has at most six words, and its
classification, when present, has at most two dots (i.e. depth up to
*three*, not two). -/
theorem C6_category_condition :
    (∀ stack (li : V3.V3Line), li.isBold = true → V3.has5seg li.text = false →
      ¬(li.text = [] ∨ (trim li.text).length < 3) →
      ¬V3.pageSkipLine li.text = true →
      V3.clean_account_name li.text ≠ [] →
      5 < (V3.clean_account_name li.text).length →
      (V3.step stack li).1 = EP.categoryPush stack (V3.clean_account_name li.text)) ∧
    (∀ stack (li : V3.V3Line), V3.has5seg li.text = true →
      (V3.step stack li).1 = stack) ∧
    (∀ stack (li : V3.V3Line), li.isBold = false →
      (V3.step stack li).1 = stack) ∧
    (∀ e : Entry, FBP.is_category e = true ↔
      (e.account ≠ [] ∧ FBP.isUpperPy e.account = true ∧
       (splitWS e.account).length ≤ 6 ∧
       ∀ c, e.classification = some c → dotCount c ≤ 2)) := by
  refine ⟨?_, ?_, ?_, ?_⟩
  · intro stack li hb h5 hne hskip hcb hlen
    simp only [V3.step]
    have hc1 : ¬((li.text = [] || decide ((trim li.text).length < 3)) = true) := by
      simpa using hne
    rw [if_neg hc1, if_neg hskip]
    rw [if_pos (by simp [hb, h5, hcb, hlen])]
    cases hp : V3.parse_data_line li.text <;> simp
  · intro stack li h5
    simp only [V3.step]
    split
    · rfl
    · split
      · rfl
      · rw [if_neg (by simp [h5])]
        cases hp : V3.parse_data_line li.text <;>
          cases hl : stack.getLast? <;> simp [hp, hl]
  · intro stack li hb
    simp only [V3.step]
    split
    · rfl
    · split
      · rfl
      · rw [if_neg (by simp [hb])]
        cases hp : V3.parse_data_line li.text <;>
          cases hl : stack.getLast? <;> simp [hp, hl]
  · intro e
    simp only [FBP.is_category]
    split
    · rename_i hacc
      simp [hacc]
    · rename_i hacc
      constructor
      · intro h
        simp only [Bool.and_eq_true] at h
        refine ⟨hacc, h.1.1, by simpa using h.1.2, ?_⟩
        intro c hc
        rw [hc] at h
        simpa using h.2
      · intro ⟨_, hu, hw, hcl⟩
        simp only [Bool.and_eq_true]
        refine ⟨⟨hu, by simpa using hw⟩, ?_⟩
        cases hcc : e.classification with
        | none => simp
        | some c => simpa using hcl c hcc

/-- C6, witness: `C6_category_condition` applied to one bold category
line, one five-segment line, and one non-bold line. -/
theorem C6_category_condition_witness :
    (V3.step [] { text := "RESULTADO OPERACIONAL".data, isBold := true }).1 =
      EP.categoryPush [] (V3.clean_account_name "RESULTADO OPERACIONAL".data) ∧
    (V3.step [] { text := "1.1.01.020.001 CAIXA GERAL".data, isBold := true }).1
      = [] ∧
    (V3.step [] { text := "RESULTADO OPERACIONAL".data, isBold := false }).1
      = [] := by
  refine ⟨?_, ?_, ?_⟩
  · exact C6_category_condition.1 [] _ rfl (by rfl) (by decide) (by decide)
      (by decide) (by decide)
  · exact C6_category_condition.2.1 [] _ (by rfl)
  · exact C6_category_condition.2.2.1 [] _ rfl

/-- The slot-assignment block never touches the account
(`extract_pdf.py`). -/
theorem EP_assign_account (b : Entry) (vs : List (List Char)) :
    (EP.assignValues b vs).account = b.account := by
  simp only [EP.assignValues]
  split_ifs <;> rfl

/-- Every record emitted by `EP.parse_data_line` has an account of at
least three characters (the source's `len(account) < 3` and
`len(cleaned_account) > 3` guards). -/
theorem EP_parse_account {line : List Char} {e : Entry}
    (h : EP.parse_data_line line = some e) : 3 ≤ e.account.length := by
  simp only [EP.parse_data_line] at h
  split at h
  · exact absurd h (by simp)
  · split at h
    · exact absurd h (by simp)
    · split at h
      · split at h
        · split at h
          · rename_i hg
            rw [Option.some.injEq] at h
            subst h
            simp only [Bool.and_eq_true, decide_eq_true_eq] at hg
            simpa [bareEntry] using Nat.le_of_lt hg.2
          · exact absurd h (by simp)
        · exact absurd h (by simp)
      · split at h
        · split at h
          · exact absurd h (by simp)
          · rename_i hg
            rw [Option.some.injEq] at h
            subst h
            rw [EP_assign_account]
            simp only [bareEntry, Bool.or_eq_true, decide_eq_true_eq, not_or] at hg ⊢
            omega
        · split at h
          · split at h
            · exact absurd h (by simp)
            · rename_i hg
              rw [Option.some.injEq] at h
              subst h
              rw [EP_assign_account]
              simp only [bareEntry, Bool.or_eq_true, decide_eq_true_eq, not_or] at hg ⊢
              omega
          · split at h
            · exact absurd h (by simp)
            · rename_i hg
              rw [Option.some.injEq] at h
              subst h
              rw [EP_assign_account]
              simp only [bareEntry, Bool.or_eq_true, decide_eq_true_eq, not_or] at hg ⊢
              omega

/-- `FBP.parse_entry_line` only succeeds on lines with at least one
monetary token. -/
theorem FBP_parse_values {line : List Char} {e : Entry}
    (h : FBP.parse_entry_line line = some e) : FBP.valuesOf line ≠ [] := by
  simp only [FBP.parse_entry_line] at h
  split at h
  · exact absurd h (by simp)
  · rename_i hv
    exact hv

/-- Every record emitted by `V2.parse_line` has a non-empty account (the
source's `if not account` guard, plus the length guard on the bare
branch). -/
theorem V2_parse_account {line : List Char} {e : Entry}
    (h : V2.parse_line line = some e) : e.account ≠ [] := by
  simp only [V2.parse_line] at h
  split at h
  · exact absurd h (by simp)
  · rename_i hg
    split at h
    · split at h
      · rw [Option.some.injEq] at h
        subst h
        simp only [Bool.or_eq_true, decide_eq_true_eq, not_or] at hg
        intro hc
        have hlen : (trim line).length = 0 := by
          simp only [bareEntry] at hc
          rw [hc]
          rfl
        omega
      · exact absurd h (by simp)
    · simp only [V2.buildEntry] at h
      split at h
      · exact absurd h (by simp)
      · split at h
        · exact absurd h (by simp)
        · rename_i hacc
          rw [Option.some.injEq] at h
          subst h
          split_ifs <;> simpa [bareEntry] using hacc

/-- C8, confirmed.  Each line parser is a total function on arbitrary
input strings: it either rejects the line (`none`) or returns a complete
record, and the record satisfies the parser's own guards
(`extract_pdf.py`: account of length ≥ 3; `final_balancete_parser.py`:
`parent_category` unset and at least one monetary token on the line;
`extract_pdf_v2.py`: non-empty account).  Rejection is the only failure
mode — the embedding is built without partiality, so no input can raise. -/
theorem C8_total_never_raises :
    (∀ l, EP.parse_data_line l = none ∨
      ∃ e, EP.parse_data_line l = some e ∧ 3 ≤ e.account.length) ∧
    (∀ l, FBP.parse_entry_line l = none ∨
      ∃ e, FBP.parse_entry_line l = some e ∧ e.parent_category = none ∧
        FBP.valuesOf l ≠ []) ∧
    (∀ l, V2.parse_line l = none ∨
      ∃ e, V2.parse_line l = some e ∧ e.account ≠ []) := by
  refine ⟨?_, ?_, ?_⟩
  · intro l
    cases h : EP.parse_data_line l with
    | none => exact Or.inl rfl
    | some e => exact Or.inr ⟨e, rfl, EP_parse_account h⟩
  · intro l
    cases h : FBP.parse_entry_line l with
    | none => exact Or.inl rfl
    | some e => exact Or.inr ⟨e, rfl, FBP_parse_parent h, FBP_parse_values h⟩
  · intro l
    cases h : V2.parse_line l with
    | none => exact Or.inl rfl
    | some e => exact Or.inr ⟨e, rfl, V2_parse_account h⟩

/-- A ledger-code match is a prefix of the text at the match position. -/
theorem tryCode46_prefix {prev : Option Char} {ls m : List Char}
    (h : tryCode46 prev ls = some m) :
    m = ls.take m.length ∧ m.length ≤ ls.length := by
  simp only [tryCode46] at h
  split at h
  · exact absurd h (by simp)
  · split at h
    · rename_i hg
      rw [Option.some.injEq] at h
      subst h
      simp only [Bool.and_eq_true, decide_eq_true_eq] at hg
      have hrun : digitRun ls ≤ ls.length := (ls.takeWhile_sublist isDigitC).length_le
      constructor
      · rw [List.length_take]
        congr 1
        omega
      · rw [List.length_take]
        omega
    · exact absurd h (by simp)

/-- Soundness of the leftmost-match scan: the returned match is the slice
of the input at the returned position. -/
theorem scanFirst_sound {try_ : Option Char → List Char → Option (List Char)}
    (hTry : ∀ p l m, try_ p l = some m → m = l.take m.length ∧ m.length ≤ l.length) :
    ∀ (ls : List Char) prev j m, scanFirst try_ prev ls = some (j, m) →
      m = (ls.drop j).take m.length ∧ j + m.length ≤ ls.length := by
  intro ls
  induction ls with
  | nil =>
    intro prev j m h
    unfold scanFirst at h
    cases htry : try_ prev [] with
    | some m' =>
      rw [htry] at h
      simp only [Option.map_some'] at h
      rw [Option.some.injEq, Prod.mk.injEq] at h
      obtain ⟨hj, hm⟩ := h
      subst hj
      subst hm
      obtain ⟨h1, h2⟩ := hTry _ _ _ htry
      exact ⟨by simpa using h1, by simpa using h2⟩
    | none =>
      rw [htry] at h
      simp at h
  | cons c r ih =>
    intro prev j m h
    unfold scanFirst at h
    cases htry : try_ prev (c :: r) with
    | some m' =>
      rw [htry] at h
      rw [Option.some.injEq, Prod.mk.injEq] at h
      obtain ⟨hj, hm⟩ := h
      subst hj
      subst hm
      obtain ⟨h1, h2⟩ := hTry _ _ _ htry
      exact ⟨by simpa using h1, by simpa using h2⟩
    | none =>
      rw [htry] at h
      cases hrec : scanFirst try_ (some c) r with
      | none =>
        rw [hrec] at h
        simp at h
      | some p =>
        rw [hrec] at h
        simp only [Option.map_some'] at h
        rw [Option.some.injEq, Prod.mk.injEq] at h
        obtain ⟨hj, hm⟩ := h
        obtain ⟨h1, h2⟩ := ih (some c) p.1 p.2 (by rw [hrec])
        subst hj
        subst hm
        constructor
        · simpa using h1
        · simp only [List.length_cons]
          omega

/-- `strip` returns a contiguous piece of its input. -/
theorem trim_isInfix (x : List Char) : trim x <:+: x := by
  unfold trim
  have h1 : x.dropWhile isSpaceC <:+ x := List.dropWhile_suffix _
  have h2 : ((x.dropWhile isSpaceC).reverse.dropWhile isSpaceC).reverse
      <+: x.dropWhile isSpaceC := by
    have h3 := List.dropWhile_suffix (l := (x.dropWhile isSpaceC).reverse) isSpaceC
    have h4 := List.reverse_prefix.2 h3
    simpa using h4
  exact h2.isInfix.trans h1.isInfix

/-- An occurrence inside a contiguous piece of `pfx.take ci` is an
occurrence in `pfx` that ends no later than `ci`. -/
theorem occ_in_take {pfx t : List Char} {ci j n : Nat}
    (hinf : t <:+: pfx.take ci) (hb : j + n ≤ t.length) :
    ∃ j', (t.drop j).take n = (pfx.drop j').take n ∧ j' + n ≤ ci := by
  obtain ⟨s, u, hsu⟩ := hinf
  have hlt : (pfx.take ci).length ≤ ci := by
    rw [List.length_take]
    omega
  have hlen : s.length + t.length ≤ (pfx.take ci).length := by
    rw [← hsu]
    simp [List.length_append]
  have hjle : j ≤ t.length := by omega
  have hocc : ((pfx.take ci).drop (s.length + j)).take n = (t.drop j).take n := by
    rw [← hsu, List.append_assoc, List.drop_append j,
      List.drop_append_of_le_length hjle,
      List.take_append_of_le_length (by rw [List.length_drop]; omega)]
  refine ⟨s.length + j, ?_, by omega⟩
  rw [← hocc, List.drop_take, List.take_take]
  congr 1
  omega

theorem EP_assign_class (b : Entry) (vs : List (List Char)) :
    (EP.assignValues b vs).classification = b.classification := by
  simp only [EP.assignValues]
  split_ifs <;> rfl

theorem EP_assign_code (b : Entry) (vs : List (List Char)) :
    (EP.assignValues b vs).code = b.code := by
  simp only [EP.assignValues]
  split_ifs <;> rfl

/-- When `EP.parse_data_line` emits a classification, the classification
is the first five-segment match in the prefix region, and the ledger code
was searched only in the stripped text *before* that match. -/
theorem EP_parse_class_code {l : List Char} {e : Entry} {c : List Char}
    (h : EP.parse_data_line l = some e) (hc : e.classification = some c) :
    ∃ ci, scanFirst (tryClass5 true) none (EP.prefixOf l) = some (ci, c) ∧
      e.code = (scanFirst tryCode46 none (trim ((EP.prefixOf l).take ci))).map (·.2) := by
  simp only [EP.parse_data_line] at h
  split at h
  · exact absurd h (by simp)
  · split at h
    · exact absurd h (by simp)
    · split at h
      · split at h
        · split at h
          · rw [Option.some.injEq] at h
            subst h
            exact absurd hc (by simp [bareEntry])
          · exact absurd h (by simp)
        · exact absurd h (by simp)
      · rename_i s0 v0 rest heq
        have hpfx : EP.prefixOf l = trim ((trim l).take s0) := by
          simp [EP.prefixOf, heq]
        split at h
        · rename_i ci cm heqc
          split at h
          · exact absurd h (by simp)
          · rw [Option.some.injEq] at h
            subst h
            rw [EP_assign_class] at hc
            simp only [bareEntry] at hc
            rw [Option.some.injEq] at hc
            subst hc
            refine ⟨ci, by rw [hpfx]; exact heqc, ?_⟩
            rw [EP_assign_code, hpfx]
        · split at h
          · split at h
            · exact absurd h (by simp)
            · rw [Option.some.injEq] at h
              subst h
              rw [EP_assign_class] at hc
              exact absurd hc (by simp [bareEntry])
          · split at h
            · exact absurd h (by simp)
            · rw [Option.some.injEq] at h
              subst h
              rw [EP_assign_class] at hc
              exact absurd hc (by simp [bareEntry])

theorem FBP_assign_code (b : Entry) (vs : List (List Char)) :
    (FBP.assignValues b vs).code = b.code := by
  simp only [FBP.assignValues]
  split_ifs <;> rfl

/-- The code field of every `FBP.parse_entry_line` record is the
anchored-prefix code match of the stripped line. -/
theorem FBP_parse_code {l : List Char} {e : Entry}
    (h : FBP.parse_entry_line l = some e) : e.code = FBP.codeOf (trim l) := by
  simp only [FBP.parse_entry_line] at h
  split at h
  · exact absurd h (by simp)
  · split at h
    · exact absurd h (by simp)
    · rw [Option.some.injEq] at h
      subst h
      rw [FBP_assign_code]

theorem take_takeWhile_len (p : Char → Bool) (l : List Char) :
    l.take (l.takeWhile p).length = l.takeWhile p := by
  induction l with
  | nil => rfl
  | cons c r ih =>
    by_cases h : p c
    · simp [List.takeWhile_cons, h, ih]
    · simp [List.takeWhile_cons, h]

theorem head_drop_get (l : List Char) (n : Nat) : (l.drop n).head? = l.get? n := by
  induction l generalizing n with
  | nil => simp
  | cons c r ih =>
    cases n with
    | zero => simp
    | succ k => simpa using ih k

/-- What `final_balancete_parser.py`'s code extraction guarantees: the
code is the line's leading maximal digit run, and the character right
after it (when present) is whitespace or an uppercase letter — never a
dot or another digit. -/
theorem FBP_codeOf_facts {l cd : List Char} (h : FBP.codeOf l = some cd) :
    cd = l.take cd.length ∧ cd ≠ [] ∧ cd.all isDigitC = true ∧
    ∀ ch, l.get? cd.length = some ch →
      (isSpaceC ch = true ∨ ('A' ≤ ch ∧ ch ≤ 'Z') ∨
       (0xC0 ≤ ch.toNat ∧ ch.toNat ≤ 0xDA)) := by
  simp only [FBP.codeOf] at h
  split at h
  · rename_i hL
    split at h
    · rename_i ch rest hdrop
      split at h
      · rename_i hcond
        rw [Option.some.injEq] at h
        subst h
        simp only [Bool.and_eq_true, decide_eq_true_eq] at hL hcond
        have hrun : digitRun l ≤ l.length := (l.takeWhile_sublist isDigitC).length_le
        have hlen : (l.take (digitRun l)).length = digitRun l := by
          rw [List.length_take]
          omega
        refine ⟨by rw [hlen], ?_, ?_, ?_⟩
        · intro hnil
          have : (l.take (digitRun l)).length = 0 := by rw [hnil]; rfl
          omega
        · simp only [digitRun]
          rw [take_takeWhile_len]
          simp only [List.all_eq_true]
          intro x hx
          exact List.mem_takeWhile_imp hx
        · intro ch' hch
          rw [hlen, ← head_drop_get, hdrop] at hch
          simp only [List.head?_cons, Option.some.injEq] at hch
          subst hch
          have := by simpa using hcond
          tauto
      · exact absurd h (by simp)
    · exact absurd h (by simp)
  · exact absurd h (by simp)

/-- C4, counterexample.  The claim forbids reading any part of a
`\d+(\.\d+){2,}` substring as a ledger code.  `extract_pdf.py`'s
classification pattern demands five segments, so on
`"1.1.0234 CONTAS 1,00"` the three-segment code `"1.1.0234"` is not
recognised and its last segment `"0234"` is emitted as the ledger code
(a substring of the dotted code). -/
theorem C4_counterexample :
    specClass3 "1.1.0234".data = true ∧
    containsSub "1.1.0234 CONTAS 1,00".data "1.1.0234".data = true ∧
    EP.parse_data_line "1.1.0234 CONTAS 1,00".data =
      some { code := some "0234".data, classification := none,
             account := "CONTAS".data, previous_balance := none, debit := none,
             credit := none, current_balance := some "1,00".data,
             parent_category := none } ∧
    containsSub "1.1.0234".data "0234".data = true := by
  exact ⟨rfl, rfl, rfl, rfl⟩

/-- C4, amended.  The tie-break only protects *five-segment*
classification codes.  In `extract_pdf.py`, whenever a record carries a
classification, that classification is the first five-segment match of
the prefix region and the emitted ledger code, if any, occurs entirely
*before* the classification match (so a recognised classification is
never also read as a code); dotted codes of three or four segments are
not recognised and a 4-6 digit segment of one can be read as the ledger
code.  In `final_balancete_parser.py` the code is the line's leading
digit run and the character after it is whitespace or an uppercase
letter — never a dot or a digit — so a code is never taken from inside a
dot-delimited classification. -/
theorem C4_classification_priority :
    (∀ l e c cd, EP.parse_data_line l = some e → e.classification = some c →
      e.code = some cd →
      ∃ ci j, scanFirst (tryClass5 true) none (EP.prefixOf l) = some (ci, c) ∧
        cd = ((EP.prefixOf l).drop j).take cd.length ∧ j + cd.length ≤ ci) ∧
    (∀ l e cd, FBP.parse_entry_line l = some e → e.code = some cd →
      cd = (trim l).take cd.length ∧ cd ≠ [] ∧ cd.all isDigitC = true ∧
      ∀ ch, (trim l).get? cd.length = some ch →
        (isSpaceC ch = true ∨ ('A' ≤ ch ∧ ch ≤ 'Z') ∨
         (0xC0 ≤ ch.toNat ∧ ch.toNat ≤ 0xDA))) := by
  constructor
  · intro l e c cd h hc hcd
    obtain ⟨ci, hclass, hcode⟩ := EP_parse_class_code h hc
    rw [hcd] at hcode
    cases hsc : scanFirst tryCode46 none (trim ((EP.prefixOf l).take ci)) with
    | none =>
      rw [hsc] at hcode
      simp at hcode
    | some p =>
      rw [hsc] at hcode
      simp only [Option.map_some'] at hcode
      rw [Option.some.injEq] at hcode
      obtain ⟨h1, h2⟩ := scanFirst_sound (fun p l m hm => tryCode46_prefix hm)
        (trim ((EP.prefixOf l).take ci)) none p.1 p.2 (by rw [hsc])
      rw [← hcode] at h1 h2
      obtain ⟨j', hj1, hj2⟩ := occ_in_take (trim_isInfix ((EP.prefixOf l).take ci))
        (j := p.1) (n := cd.length) h2
      have hfin : cd = ((EP.prefixOf l).drop j').take cd.length := by
        conv_lhs => rw [h1]
        exact hj1
      exact ⟨ci, j', hclass, hfin, hj2⟩
  · intro l e cd h hcd
    have hfield := FBP_parse_code h
    rw [hcd] at hfield
    exact FBP_codeOf_facts hfield.symm

/-- C4, witness: `C4_classification_priority` applied to the line
`"1001 1.1.01.020.001 CAIXA GERAL 1,00"` (code before a five-segment
classification) and to `"1001 CAIXA 1,00"` for
`final_balancete_parser.py`. -/
theorem C4_classification_priority_witness :
    (∃ ci j, scanFirst (tryClass5 true) none
        (EP.prefixOf "1001 1.1.01.020.001 CAIXA GERAL 1,00".data) =
        some (ci, "1.1.01.020.001".data) ∧
      "1001".data =
        ((EP.prefixOf "1001 1.1.01.020.001 CAIXA GERAL 1,00".data).drop j).take
          ("1001".data).length ∧
      j + ("1001".data).length ≤ ci) ∧
    ("1001".data = (trim "1001 CAIXA 1,00".data).take ("1001".data).length ∧
      "1001".data ≠ [] ∧ ("1001".data).all isDigitC = true ∧
      ∀ ch, (trim "1001 CAIXA 1,00".data).get? ("1001".data).length = some ch →
        (isSpaceC ch = true ∨ ('A' ≤ ch ∧ ch ≤ 'Z') ∨
         (0xC0 ≤ ch.toNat ∧ ch.toNat ≤ 0xDA))) := by
  constructor
  · exact C4_classification_priority.1 "1001 1.1.01.020.001 CAIXA GERAL 1,00".data
      _ _ _ (by rfl) (by rfl) (by rfl)
  · exact C4_classification_priority.2 "1001 CAIXA 1,00".data
      _ _ (by rfl) (by rfl)

theorem seg_facts {ls d r : List Char} (h : seg ls = some (d, r)) :
    d ≠ [] ∧ d.all isDigitC = true := by
  simp only [seg] at h
  split at h
  · exact absurd h (by simp)
  · rename_i hL
    rw [Option.some.injEq, Prod.mk.injEq] at h
    obtain ⟨hd, _⟩ := h
    subst hd
    have hrun : digitRun ls ≤ ls.length := (ls.takeWhile_sublist isDigitC).length_le
    constructor
    · intro hnil
      have : (ls.take (digitRun ls)).length = 0 := by rw [hnil]; rfl
      rw [List.length_take] at this
      omega
    · simp only [digitRun]
      rw [take_takeWhile_len]
      simp only [List.all_eq_true]
      intro x hx
      exact List.mem_takeWhile_imp hx

theorem dotfree_of_digits {d : List Char} (h : d.all isDigitC = true) :
    '.' ∉ d := by
  intro hmem
  rw [List.all_eq_true] at h
  have := h '.' hmem
  simp [isDigitC] at this

theorem splitDotsAux_append (a : List Char) (rest : List Char) :
    ∀ acc, '.' ∉ a →
      splitDotsAux acc (a ++ '.' :: rest) = (acc.reverse ++ a) :: splitDotsAux [] rest := by
  induction a with
  | nil => intro acc _; simp [splitDotsAux]
  | cons c a' ih =>
    intro acc ha
    have hc : c ≠ '.' := fun hcc => ha (hcc ▸ List.mem_cons_self c a')
    have ha' : '.' ∉ a' := fun hmm => ha (List.mem_cons_of_mem c hmm)
    simp only [List.cons_append, splitDotsAux]
    rw [ih (c :: acc) ha']
    simp

theorem splitDotsAux_nodot (a : List Char) :
    ∀ acc, '.' ∉ a → splitDotsAux acc a = [acc.reverse ++ a] := by
  induction a with
  | nil => intro acc _; simp [splitDotsAux]
  | cons c a' ih =>
    intro acc ha
    have hc : c ≠ '.' := fun hcc => ha (hcc ▸ List.mem_cons_self c a')
    have ha' : '.' ∉ a' := fun hmm => ha (List.mem_cons_of_mem c hmm)
    simp only [splitDotsAux]
    rw [ih (c :: acc) ha']
    simp

theorem fiveSeg_of_parts {d1 d2 d3 d4 d5 : List Char}
    (h1 : d1 ≠ [] ∧ d1.all isDigitC = true) (h2 : d2 ≠ [] ∧ d2.all isDigitC = true)
    (h3 : d3 ≠ [] ∧ d3.all isDigitC = true) (h4 : d4 ≠ [] ∧ d4.all isDigitC = true)
    (h5 : d5 ≠ [] ∧ d5.all isDigitC = true) :
    fiveSeg (d1 ++ '.' :: d2 ++ '.' :: d3 ++ '.' :: d4 ++ '.' :: d5) = true := by
  have hne : d1 ++ '.' :: d2 ++ '.' :: d3 ++ '.' :: d4 ++ '.' :: d5
      = d1 ++ '.' :: (d2 ++ '.' :: (d3 ++ '.' :: (d4 ++ '.' :: d5))) := by
    simp
  rw [hne]
  have e1 := splitDotsAux_append d1 (d2 ++ '.' :: (d3 ++ '.' :: (d4 ++ '.' :: d5))) []
    (dotfree_of_digits h1.2)
  have e2 := splitDotsAux_append d2 (d3 ++ '.' :: (d4 ++ '.' :: d5)) []
    (dotfree_of_digits h2.2)
  have e3 := splitDotsAux_append d3 (d4 ++ '.' :: d5) [] (dotfree_of_digits h3.2)
  have e4 := splitDotsAux_append d4 d5 [] (dotfree_of_digits h4.2)
  have e5 := splitDotsAux_nodot d5 [] (dotfree_of_digits h5.2)
  simp only [fiveSeg, splitDots, List.cons_append]
  simp only [e1, e2, e3, e4, e5]
  simp [h1.1, h1.2, h2.1, h2.2, h3.1, h3.2, h4.1, h4.2, h5.1, h5.2]

theorem tryClass5_shape {b : Bool} {prev : Option Char} {ls m : List Char}
    (h : tryClass5 b prev ls = some m) : fiveSeg m = true := by
  simp only [tryClass5] at h
  split at h
  · exact absurd h (by simp)
  split at h
  · exact absurd h (by simp)
  rename_i d1 r1 hs1
  split at h
  swap
  · exact absurd h (by simp)
  rename_i r1' he1
  split at h
  · exact absurd h (by simp)
  rename_i d2 r2 hs2
  split at h
  swap
  · exact absurd h (by simp)
  rename_i r2' he2
  split at h
  · exact absurd h (by simp)
  rename_i d3 r3 hs3
  split at h
  swap
  · exact absurd h (by simp)
  rename_i r3' he3
  split at h
  · exact absurd h (by simp)
  rename_i d4 r4 hs4
  split at h
  swap
  · exact absurd h (by simp)
  rename_i r4' he4
  split at h
  · exact absurd h (by simp)
  rename_i d5 r5 hs5
  split at h
  · exact absurd h (by simp)
  rw [Option.some.injEq] at h
  subst h
  exact fiveSeg_of_parts (seg_facts hs1) (seg_facts hs2) (seg_facts hs3)
    (seg_facts hs4) (seg_facts hs5)

theorem scanFirst_origin {try_ : Option Char → List Char → Option (List Char)} :
    ∀ (ls : List Char) (prev : Option Char) (j : Nat) (m : List Char),
      scanFirst try_ prev ls = some (j, m) →
      ∃ p l', try_ p l' = some m := by
  intro ls
  induction ls with
  | nil =>
    intro prev j m h
    simp only [scanFirst] at h
    cases ht : try_ prev [] with
    | none => rw [ht] at h; simp at h
    | some m0 =>
      rw [ht] at h
      simp only [Option.map_some', Option.some.injEq, Prod.mk.injEq] at h
      exact ⟨prev, [], by rw [ht, h.2]⟩
  | cons c r ih =>
    intro prev j m h
    simp only [scanFirst] at h
    split at h
    · rename_i m0 hm0
      rw [Option.some.injEq, Prod.mk.injEq] at h
      exact ⟨prev, c :: r, by rw [hm0, h.2]⟩
    · cases hs : scanFirst try_ (some c) r with
      | none => rw [hs] at h; simp at h
      | some p =>
        rw [hs, Option.map_some', Option.some.injEq] at h
        have hm : p.2 = m := congrArg Prod.snd h
        exact hm ▸ ih (some c) p.1 p.2 (by rw [hs])

theorem EPF_parse_class {l : List Char} {e : Entry} {c : List Char}
    (h : EPF.parse_data_line l = some e) (hc : e.classification = some c) :
    ∃ pfx ci, scanFirst (tryClass5 false) none pfx = some (ci, c) := by
  simp only [EPF.parse_data_line] at h
  split at h
  · exact absurd h (by simp)
  · split at h
    · exact absurd h (by simp)
    · split at h
      · split at h
        · rw [Option.some.injEq] at h
          subst h
          exact absurd hc (by simp [bareEntry])
        · exact absurd h (by simp)
      · rename_i s0 v0 rest heq
        split at h
        · rename_i ci cm heqc
          split at h
          all_goals
            split at h
            · exact absurd h (by simp)
            · rw [Option.some.injEq] at h
              subst h
              rw [EP_assign_class] at hc
              simp only [bareEntry] at hc
              rw [Option.some.injEq] at hc
              subst hc
              exact ⟨_, ci, heqc⟩
        · split at h
          · split at h
            all_goals
              split at h
              · exact absurd h (by simp)
              · rw [Option.some.injEq] at h
                subst h
                rw [EP_assign_class] at hc
                exact absurd hc (by simp [bareEntry])
          · split at h
            all_goals
              split at h
              · exact absurd h (by simp)
              · rw [Option.some.injEq] at h
                subst h
                rw [EP_assign_class] at hc
                exact absurd hc (by simp [bareEntry])

theorem V3_parse_class {l : List Char} {e : Entry} {c : List Char}
    (h : V3.parse_data_line l = some e) (hc : e.classification = some c) :
    ∃ pfx ci, scanFirst (tryClass5 false) none pfx = some (ci, c) := by
  simp only [V3.parse_data_line] at h
  split at h
  · exact absurd h (by simp)
  · split at h
    · exact absurd h (by simp)
    · split at h
      · split at h
        · split at h
          · rw [Option.some.injEq] at h
            subst h
            exact absurd hc (by simp [bareEntry])
          · exact absurd h (by simp)
        · exact absurd h (by simp)
      · rename_i s0 v0 rest heq
        split at h
        · rename_i ci cm heqc
          split at h
          · exact absurd h (by simp)
          · rw [Option.some.injEq] at h
            subst h
            rw [EP_assign_class] at hc
            simp only [bareEntry] at hc
            rw [Option.some.injEq] at hc
            subst hc
            exact ⟨_, ci, heqc⟩
        · split at h
          · split at h
            · exact absurd h (by simp)
            · rw [Option.some.injEq] at h
              subst h
              rw [EP_assign_class] at hc
              exact absurd hc (by simp [bareEntry])
          · split at h
            · exact absurd h (by simp)
            · rw [Option.some.injEq] at h
              subst h
              rw [EP_assign_class] at hc
              exact absurd hc (by simp [bareEntry])

/-- C10, counterexample.  The claim says a dotted code with three or four
segments "remains part of the account text".  On
`"2.3.0456 VENDAS 1,00"` (`extract_pdf.py`) the three-segment code
`"2.3.0456"` indeed yields no classification, but it does not remain in
the account: its last group `"0456"` is read as the ledger code and the
leading `"2.3."` is dropped, so the account text `"VENDAS"` contains no
part of the dotted code. -/
theorem C10_counterexample :
    ∃ e, EP.parse_data_line ("2.3.0456 VENDAS 1,00".data) = some e ∧
      e.classification = none ∧ e.code = some ("0456".data) ∧
      e.account = "VENDAS".data ∧
      containsSub e.account ("2.3.0456".data) = false :=
  ⟨_, rfl, rfl, rfl, rfl, rfl⟩

/-- C10: in the `extract_pdf.py`, `extract_pdf_final.py` and
`extract_pdf_v3.py` line parsers, whenever the emitted classification
field is non-null it consists of exactly five dot-separated non-empty
digit groups. -/
theorem C10_classification_shape {l : List Char} {e : Entry} {c : List Char}
    (h : EP.parse_data_line l = some e ∨ EPF.parse_data_line l = some e ∨
         V3.parse_data_line l = some e)
    (hc : e.classification = some c) : fiveSeg c = true := by
  rcases h with h | h | h
  · obtain ⟨ci, hsc, -⟩ := EP_parse_class_code h hc
    obtain ⟨p, l', ht⟩ := scanFirst_origin _ _ _ _ hsc
    exact tryClass5_shape ht
  · obtain ⟨pfx, ci, hsc⟩ := EPF_parse_class h hc
    obtain ⟨p, l', ht⟩ := scanFirst_origin _ _ _ _ hsc
    exact tryClass5_shape ht
  · obtain ⟨pfx, ci, hsc⟩ := V3_parse_class h hc
    obtain ⟨p, l', ht⟩ := scanFirst_origin _ _ _ _ hsc
    exact tryClass5_shape ht

theorem C10_classification_shape_witness :
    fiveSeg ("1.2.03.040.005".data) = true :=
  C10_classification_shape
    (l := "2002 1.2.03.040.005 BANCOS CONTA 2,00".data)
    (Or.inl (by rfl)) (by rfl)

/-- Dropping leading whitespace of a space-free list is the identity. -/
theorem dropWhile_nospace {l : List Char}
    (h : l.all (fun c => !isSpaceC c) = true) : l.dropWhile isSpaceC = l := by
  cases l with
  | nil => rfl
  | cons c r =>
    simp only [List.all_cons, Bool.and_eq_true, Bool.not_eq_true'] at h
    simp [List.dropWhile_cons, h.1]

theorem trim_cons_space {c : Char} {l : List Char} (h : isSpaceC c = true) :
    trim (c :: l) = trim l := by
  simp [trim, List.dropWhile_cons, h]

theorem collapse_nospace_append {w : List Char} (x : List Char)
    (h : w.all (fun c => !isSpaceC c) = true) :
    collapse (w ++ x) = w ++ collapse x := by
  induction w with
  | nil => rfl
  | cons c w' ih =>
    simp only [List.all_cons, Bool.and_eq_true, Bool.not_eq_true'] at h
    cases hwx : w' ++ x with
    | nil =>
      rcases List.append_eq_nil.mp hwx with ⟨h1, h2⟩
      subst h1; subst h2
      simp [collapse, h.1]
    | cons d r =>
      simp only [List.cons_append, hwx, collapse, h.1]
      simp only [Bool.false_eq_true, if_false]
      rw [← hwx, ih h.2]

theorem collapse_nospace {w : List Char}
    (h : w.all (fun c => !isSpaceC c) = true) : collapse w = w := by
  have := collapse_nospace_append [] h
  simp only [show collapse [] = [] from rfl, List.append_nil] at this
  exact this

theorem trim_nospace {w : List Char}
    (h : w.all (fun c => !isSpaceC c) = true) : trim w = w := by
  have hr : w.reverse.all (fun c => !isSpaceC c) = true := by
    rw [List.all_reverse]; exact h
  simp only [trim, dropWhile_nospace h, dropWhile_nospace hr, List.reverse_reverse]

theorem normSpace_nospace {w : List Char}
    (h : w.all (fun c => !isSpaceC c) = true) : FBP.normSpace w = w := by
  rw [FBP.normSpace, collapse_nospace h, trim_nospace h]

theorem trim_eq_trimR_dropWhile (l : List Char) :
    trim l = trimR (l.dropWhile isSpaceC) := rfl

theorem collapse_cons_nospace {d : Char} (r : List Char)
    (h : isSpaceC d = false) : collapse (d :: r) = d :: collapse r := by
  cases r with
  | nil => simp [collapse, h]
  | cons e r' => simp [collapse, h]

theorem collapse_cons_space_space {c d : Char} (r : List Char)
    (hc : isSpaceC c = true) (hd : isSpaceC d = true) :
    collapse (c :: d :: r) = collapse (d :: r) := by
  simp [collapse, hc, hd]

theorem collapse_cons_space_nospace {c d : Char} (r : List Char)
    (hc : isSpaceC c = true) (hd : isSpaceC d = false) :
    collapse (c :: d :: r) = ' ' :: collapse (d :: r) := by
  simp [collapse, hc, hd]

theorem normSpace_cons_space {c : Char} {r : List Char}
    (h : isSpaceC c = true) : FBP.normSpace (c :: r) = FBP.normSpace r := by
  cases r with
  | nil =>
    simp only [FBP.normSpace, collapse, h, if_pos]
    rfl
  | cons d r' =>
    cases hd : isSpaceC d with
    | true => rw [FBP.normSpace, collapse_cons_space_space r' h hd]; rfl
    | false =>
      rw [FBP.normSpace, collapse_cons_space_nospace r' h hd, FBP.normSpace]
      exact trim_cons_space (by rfl)

theorem trimR_ne_nil_of_head {d : Char} {t : List Char}
    (h : isSpaceC d = false) : trimR (d :: t) ≠ [] := by
  intro hnil
  have : (d :: t).reverse.dropWhile isSpaceC = [] := by
    have := congrArg List.reverse hnil
    simpa [trimR] using this
  rw [List.dropWhile_eq_nil_iff] at this
  have := this d (by simp)
  rw [h] at this
  exact absurd this (by simp)

theorem trimR_cons_space_of_ne {z : List Char} (h : trimR z ≠ []) :
    trimR (' ' :: z) = ' ' :: trimR z := by
  have hz : z.reverse.dropWhile isSpaceC ≠ [] := by
    intro hc
    exact h (by simp [trimR, hc])
  simp only [trimR, List.reverse_cons, List.dropWhile_append,
    List.isEmpty_iff]
  rw [if_neg hz]
  simp

theorem trimR_word_append {w : List Char} (y : List Char)
    (h : w.all (fun c => !isSpaceC c) = true) :
    trimR (w ++ y) = w ++ trimR y := by
  have hwr : w.reverse.all (fun c => !isSpaceC c) = true := by
    rw [List.all_reverse]; exact h
  simp only [trimR, List.reverse_append, List.dropWhile_append,
    List.isEmpty_iff]
  by_cases hy : y.reverse.dropWhile isSpaceC = []
  · rw [if_pos hy, dropWhile_nospace hwr, hy]
    simp
  · rw [if_neg hy]
    simp

theorem trimR_collapse_space :
    ∀ (r : List Char) (c : Char), isSpaceC c = true →
      trimR (collapse (c :: r)) =
        (if FBP.normSpace r = [] then [] else ' ' :: FBP.normSpace r) := by
  intro r
  induction r with
  | nil =>
    intro c hc
    simp only [collapse, hc, if_pos]
    rfl
  | cons d r' ih =>
    intro c hc
    cases hd : isSpaceC d with
    | true =>
      rw [collapse_cons_space_space r' hc hd, ih d hd,
        normSpace_cons_space hd]
    | false =>
      rw [collapse_cons_space_nospace r' hc hd]
      have hz : collapse (d :: r') = d :: collapse r' :=
        collapse_cons_nospace r' hd
      have hne : trimR (collapse (d :: r')) ≠ [] := by
        rw [hz]; exact trimR_ne_nil_of_head hd
      rw [trimR_cons_space_of_ne hne]
      have hns : FBP.normSpace (d :: r') = trimR (collapse (d :: r')) := by
        rw [FBP.normSpace, trim_eq_trimR_dropWhile, hz, List.dropWhile_cons]
        rw [hd]
        simp
      rw [if_neg (by rw [hns]; exact hne), hns]

theorem normSpace_word_space {w : List Char} {c : Char} (r : List Char)
    (hw : w.all (fun c => !isSpaceC c) = true) (hne : w ≠ [])
    (hc : isSpaceC c = true) :
    FBP.normSpace (w ++ c :: r) =
      (if FBP.normSpace r = [] then w else w ++ ' ' :: FBP.normSpace r) := by
  rw [FBP.normSpace, collapse_nospace_append (c :: r) hw, trim_eq_trimR_dropWhile]
  have hdw : (w ++ collapse (c :: r)).dropWhile isSpaceC = w ++ collapse (c :: r) := by
    cases w with
    | nil => exact absurd rfl hne
    | cons a w' =>
      simp only [List.all_cons, Bool.and_eq_true, Bool.not_eq_true'] at hw
      simp [List.dropWhile_cons, hw.1]
  rw [hdw, trimR_word_append _ hw, trimR_collapse_space r c hc]
  split <;> simp

theorem joinSpace_head {ws : List (List Char)} (hg : goodWs ws = true)
    (hne : ws ≠ []) : ∃ d t, joinSpace ws = d :: t ∧ isSpaceC d = false := by
  cases ws with
  | nil => exact absurd rfl hne
  | cons w ws' =>
    simp only [goodWs, List.all_cons, Bool.and_eq_true, goodW,
      Bool.not_eq_true', List.isEmpty_iff] at hg
    obtain ⟨⟨hwne, hwall⟩, -⟩ := hg
    cases w with
    | nil => simp at hwne
    | cons d w' =>
      simp only [List.all_cons, Bool.and_eq_true, Bool.not_eq_true'] at hwall
      cases ws' with
      | nil => exact ⟨d, w', rfl, hwall.1⟩
      | cons w1 rest => exact ⟨d, w' ++ ' ' :: joinSpace (w1 :: rest), rfl, hwall.1⟩

theorem splitWSAux_good :
    ∀ (x acc : List Char), acc.all (fun c => !isSpaceC c) = true →
      goodWs (splitWSAux acc x) = true := by
  intro x
  induction x with
  | nil =>
    intro acc hacc
    simp only [splitWSAux]
    split
    · rfl
    · rename_i hne
      simp only [goodWs, List.all_cons, Bool.and_eq_true, goodW,
        Bool.not_eq_true', List.isEmpty_iff, List.all_nil]
      refine ⟨⟨by simpa using hne, by rw [List.all_reverse]; exact hacc⟩, trivial⟩
  | cons c r ih =>
    intro acc hacc
    simp only [splitWSAux]
    cases hc : isSpaceC c with
    | true =>
      simp only [if_pos]
      split
      · exact ih [] rfl
      · rename_i hne
        simp only [goodWs, List.all_cons, Bool.and_eq_true]
        refine ⟨?_, ih [] rfl⟩
        simp only [goodW, Bool.and_eq_true, Bool.not_eq_true', List.isEmpty_iff]
        exact ⟨by simpa using hne, by rw [List.all_reverse]; exact hacc⟩
    | false =>
      simp only [Bool.false_eq_true, if_false]
      refine ih (c :: acc) ?_
      simp [hacc, hc]

theorem splitWS_good (l : List Char) : goodWs (splitWS l) = true :=
  splitWSAux_good l [] rfl

theorem joinSpace_splitWSAux :
    ∀ (x acc : List Char), acc.all (fun c => !isSpaceC c) = true →
      joinSpace (splitWSAux acc x) = FBP.normSpace (acc.reverse ++ x) := by
  intro x
  induction x with
  | nil =>
    intro acc hacc
    simp only [splitWSAux, List.append_nil]
    split
    · rename_i h
      subst h
      rfl
    · rw [joinSpace, normSpace_nospace (by rw [List.all_reverse]; exact hacc)]
  | cons c r ih =>
    intro acc hacc
    simp only [splitWSAux]
    cases hc : isSpaceC c with
    | true =>
      simp only [if_pos]
      split
      · rename_i h
        subst h
        rw [ih [] rfl, List.reverse_nil, List.nil_append, List.nil_append,
          normSpace_cons_space hc]
      · rename_i hne
        have hz := ih [] rfl
        rw [List.reverse_nil, List.nil_append] at hz
        have haccr : acc.reverse.all (fun c => !isSpaceC c) = true := by
          rw [List.all_reverse]; exact hacc
        have haccne : acc.reverse ≠ [] := by simpa using hne
        rw [normSpace_word_space r haccr haccne hc]
        cases hsw : splitWSAux [] r with
        | nil =>
          rw [hsw] at hz
          rw [joinSpace, ← hz]
          rfl
        | cons zw z' =>
          rw [hsw] at hz
          have hzne : joinSpace (zw :: z') ≠ [] := by
            have hgz : goodWs (zw :: z') = true := by
              rw [← hsw]; exact splitWS_good r
            obtain ⟨d, t, hdt, -⟩ := joinSpace_head hgz (by simp)
            rw [hdt]; simp
          rw [if_neg (by rw [← hz]; exact hzne), joinSpace, ← hz]
          simp
    | false =>
      simp only [Bool.false_eq_true, if_false]
      rw [ih (c :: acc) (by simp [hacc, hc])]
      simp [List.reverse_cons, List.append_assoc]

theorem normSpace_eq_join (y : List Char) :
    FBP.normSpace y = joinSpace (splitWS y) := by
  rw [splitWS, joinSpace_splitWSAux y [] rfl, List.reverse_nil, List.nil_append]

theorem splitWSAux_nospace_append :
    ∀ (w r acc : List Char), w.all (fun c => !isSpaceC c) = true →
      splitWSAux acc (w ++ r) = splitWSAux (w.reverse ++ acc) r := by
  intro w
  induction w with
  | nil => intro r acc _; simp
  | cons c w' ih =>
    intro r acc hw
    simp only [List.all_cons, Bool.and_eq_true, Bool.not_eq_true'] at hw
    simp only [List.cons_append, List.append_eq, splitWSAux, hw.1,
      Bool.false_eq_true, if_false]
    rw [ih r (c :: acc) hw.2]
    simp [List.reverse_cons, List.append_assoc]

theorem splitWS_join :
    ∀ (ws : List (List Char)), goodWs ws = true →
      splitWS (joinSpace ws) = ws := by
  intro ws
  induction ws with
  | nil => intro _; rfl
  | cons w ws' ih =>
    intro hg
    simp only [goodWs, List.all_cons, Bool.and_eq_true, goodW,
      Bool.not_eq_true', List.isEmpty_iff] at hg
    obtain ⟨⟨hwne, hwall⟩, hg'⟩ := hg
    cases ws' with
    | nil =>
      show splitWSAux [] (joinSpace [w]) = [w]
      rw [joinSpace]
      have := splitWSAux_nospace_append w [] [] hwall
      rw [List.append_nil] at this
      rw [this, List.append_nil, splitWSAux]
      rw [if_neg (by simpa using hwne)]
      rw [List.reverse_reverse]
    | cons w1 rest =>
      show splitWSAux [] (joinSpace (w :: w1 :: rest)) = w :: w1 :: rest
      rw [joinSpace]
      · have := splitWSAux_nospace_append w (' ' :: joinSpace (w1 :: rest)) [] hwall
        rw [List.append_nil] at this
        rw [this, splitWSAux]
        rw [if_pos (by rfl), if_neg (by simpa using hwne), List.reverse_reverse]
        have ihr := ih (by simpa [goodWs] using hg')
        rw [splitWS] at ihr
        rw [ihr]
      · simp

theorem trimR_join :
    ∀ (ws : List (List Char)), goodWs ws = true →
      trimR (joinSpace ws) = joinSpace ws := by
  intro ws
  induction ws with
  | nil => intro _; rfl
  | cons w ws' ih =>
    intro hg
    simp only [goodWs, List.all_cons, Bool.and_eq_true, goodW,
      Bool.not_eq_true', List.isEmpty_iff] at hg
    obtain ⟨⟨hwne, hwall⟩, hg'⟩ := hg
    cases ws' with
    | nil =>
      show trimR (joinSpace [w]) = joinSpace [w]
      rw [joinSpace]
      have := trimR_word_append [] hwall
      rw [List.append_nil] at this
      rw [this]
      simp [trimR]
    | cons w1 rest =>
      show trimR (joinSpace (w :: w1 :: rest)) = joinSpace (w :: w1 :: rest)
      rw [joinSpace]
      · have hgood : goodWs (w1 :: rest) = true := by simpa [goodWs] using hg'
        have ihr := ih hgood
        have hzne : trimR (joinSpace (w1 :: rest)) ≠ [] := by
          rw [ihr]
          obtain ⟨d, t, hdt, -⟩ := joinSpace_head hgood (by simp)
          rw [hdt]; simp
        rw [trimR_word_append _ hwall, trimR_cons_space_of_ne hzne, ihr]
      · simp

theorem trim_join {ws : List (List Char)} (hg : goodWs ws = true) :
    trim (joinSpace ws) = joinSpace ws := by
  cases hws : ws with
  | nil => rfl
  | cons w ws' =>
    rw [trim_eq_trimR_dropWhile]
    obtain ⟨d, t, hdt, hd⟩ := joinSpace_head (hws ▸ hg) (by simp)
    rw [hdt, List.dropWhile_cons, hd, ← hdt]
    simp only [Bool.false_eq_true, if_false]
    exact trimR_join _ (hws ▸ hg)

theorem keepMid_idem : ∀ (l : List (List Char)), FBP.keepMid (FBP.keepMid l) = FBP.keepMid l := by
  intro l
  induction l with
  | nil => rfl
  | cons w rest ih =>
    cases rest with
    | nil => rfl
    | cons w1 r1 =>
      simp only [FBP.keepMid]
      split
      · rename_i hlen
        cases hk : FBP.keepMid (w1 :: r1) with
        | nil => rfl
        | cons k ks =>
          simp only [FBP.keepMid, if_pos hlen]
          rw [← hk, ih]
      · exact ih

theorem keepMid_subset : ∀ (l : List (List Char)) (w : List Char),
    w ∈ FBP.keepMid l → w ∈ l := by
  intro l
  induction l with
  | nil => intro w h; exact absurd h (by simp [FBP.keepMid])
  | cons v rest ih =>
    intro w h
    cases rest with
    | nil =>
      simp only [FBP.keepMid] at h
      exact h
    | cons w1 r1 =>
      simp only [FBP.keepMid] at h
      split at h
      · rcases List.mem_cons.mp h with h1 | h2
        · exact h1 ▸ List.mem_cons_self v _
        · exact List.mem_cons_of_mem v (ih w h2)
      · exact List.mem_cons_of_mem v (ih w h)

theorem keepWords_subset {l : List (List Char)} {w : List Char}
    (h : w ∈ FBP.keepWords l) : w ∈ l := by
  cases l with
  | nil => exact absurd h (by simp [FBP.keepWords])
  | cons v rest =>
    simp only [FBP.keepWords] at h
    rcases List.mem_cons.mp h with h1 | h2
    · exact h1 ▸ List.mem_cons_self v _
    · exact List.mem_cons_of_mem v (keepMid_subset rest w h2)

theorem keepWords_idem (l : List (List Char)) :
    FBP.keepWords (FBP.keepWords l) = FBP.keepWords l := by
  cases l with
  | nil => rfl
  | cons w rest =>
    simp only [FBP.keepWords, keepMid_idem]

theorem goodWs_of_subset {l m : List (List Char)}
    (hsub : ∀ w, w ∈ m → w ∈ l) (hg : goodWs l = true) : goodWs m = true := by
  simp only [goodWs, List.all_eq_true] at hg ⊢
  exact fun w hw => hg w (hsub w hw)

theorem charSub_allowed (l : List Char) :
    (FBP.charSub l).all FBP.allowedFBP = true := by
  simp only [FBP.charSub, List.all_eq_true]
  intro c hc
  rw [List.mem_map] at hc
  obtain ⟨a, -, ha⟩ := hc
  by_cases h : FBP.allowedFBP a = true
  · rw [← ha]; simp [h]
  · rw [← ha, if_neg h]
    decide

theorem charSub_id {l : List Char} (h : l.all FBP.allowedFBP = true) :
    FBP.charSub l = l := by
  simp only [List.all_eq_true] at h
  simp only [FBP.charSub]
  induction l with
  | nil => rfl
  | cons c r ih =>
    rw [List.map_cons, if_pos (h c (by simp)), ih (fun a ha => h a (by simp [ha]))]

theorem splitWSAux_all {p : Char → Bool} :
    ∀ (x acc : List Char), x.all p = true → acc.all p = true →
      ∀ w ∈ splitWSAux acc x, w.all p = true := by
  intro x
  induction x with
  | nil =>
    intro acc _ hacc w hw
    simp only [splitWSAux] at hw
    split at hw
    · exact absurd hw (by simp)
    · rw [List.mem_singleton] at hw
      subst hw
      rw [List.all_reverse]
      exact hacc
  | cons c r ih =>
    intro acc hx hacc w hw
    simp only [List.all_cons, Bool.and_eq_true] at hx
    simp only [splitWSAux] at hw
    split at hw
    · split at hw
      · exact ih [] hx.2 rfl w hw
      · rcases List.mem_cons.mp hw with h1 | h2
        · subst h1; rw [List.all_reverse]; exact hacc
        · exact ih [] hx.2 rfl w h2
    · exact ih (c :: acc) hx.2 (by simp [hacc, hx.1]) w hw

theorem joinSpace_all {p : Char → Bool} (hsp : p ' ' = true) :
    ∀ (ws : List (List Char)), (∀ w ∈ ws, w.all p = true) →
      (joinSpace ws).all p = true := by
  intro ws
  induction ws with
  | nil => intro _; rfl
  | cons w ws' ih =>
    intro h
    cases ws' with
    | nil =>
      show (joinSpace [w]).all p = true
      rw [joinSpace]
      exact h w (by simp)
    | cons w1 rest =>
      show (joinSpace (w :: w1 :: rest)).all p = true
      rw [joinSpace]
      · simp only [List.all_append, List.all_cons, Bool.and_eq_true]
        exact ⟨h w (by simp), hsp, ih (fun v hv => h v (by simp [hv]))⟩
      · simp

theorem cd_fixed {V : List (List Char)} (hg : goodWs V = true)
    (ha : (joinSpace V).all FBP.allowedFBP = true) (hk : FBP.keepWords V = V) :
    FBP.clean_description (joinSpace V) = joinSpace V := by
  simp only [FBP.clean_description]
  rw [charSub_id ha, normSpace_eq_join (joinSpace V), splitWS_join V hg,
    splitWS_join V hg]
  cases V with
  | nil => rfl
  | cons w0 tl =>
    cases tl with
    | nil => exact trim_join hg
    | cons w1 rest =>
      show trim (if FBP.keepWords (w0 :: w1 :: rest) = [] then
          (if upperL w0 = upperL (FBP.lastD w1 (w1 :: rest)) then FBP.lastD w1 (w1 :: rest)
           else joinSpace (w0 :: w1 :: rest))
        else joinSpace (FBP.keepWords (w0 :: w1 :: rest))) =
        joinSpace (w0 :: w1 :: rest)
      rw [hk, if_neg (by simp)]
      exact trim_join hg

theorem cd_shape (t0 : List Char) : ∃ V, goodWs V = true ∧
    (joinSpace V).all FBP.allowedFBP = true ∧ FBP.keepWords V = V ∧
    FBP.clean_description t0 = joinSpace V := by
  simp only [FBP.clean_description]
  have hgW := splitWS_good (FBP.charSub t0)
  have hwa : ∀ w ∈ splitWS (FBP.charSub t0), w.all FBP.allowedFBP = true :=
    splitWSAux_all (FBP.charSub t0) [] (charSub_allowed t0) rfl
  rw [normSpace_eq_join (FBP.charSub t0),
    splitWS_join (splitWS (FBP.charSub t0)) hgW]
  cases hW : splitWS (FBP.charSub t0) with
  | nil => exact ⟨[], rfl, rfl, rfl, rfl⟩
  | cons w0 tl =>
    rw [hW] at hgW hwa
    cases tl with
    | nil =>
      refine ⟨[w0], hgW, ?_, rfl, trim_join hgW⟩
      show (joinSpace [w0]).all FBP.allowedFBP = true
      rw [joinSpace]
      exact hwa w0 (by simp)
    | cons w1 rest =>
      have hVg : goodWs (FBP.keepWords (w0 :: w1 :: rest)) = true :=
        goodWs_of_subset (fun w hw => keepWords_subset hw) hgW
      refine ⟨FBP.keepWords (w0 :: w1 :: rest), hVg, ?_, keepWords_idem _, ?_⟩
      · exact joinSpace_all (by decide) _
          (fun w hw => hwa w (keepWords_subset hw))
      · show trim (if FBP.keepWords (w0 :: w1 :: rest) = [] then
            (if upperL w0 = upperL (FBP.lastD w1 (w1 :: rest)) then FBP.lastD w1 (w1 :: rest)
             else joinSpace (w0 :: w1 :: rest))
          else joinSpace (FBP.keepWords (w0 :: w1 :: rest))) =
          joinSpace (FBP.keepWords (w0 :: w1 :: rest))
        rw [if_neg (by simp [FBP.keepWords])]
        exact trim_join hVg

/-- C7, counterexample.  The normalizer of `extract_pdf.py` is not
idempotent: `remove_duplicate_text` skips every word whose similarity to
its predecessor exceeds 0.8, so `clean_account_name_final` maps
`"AAAA AAAA AAAA"` to `"AAAA AAAA"` (words 1 and 3 survive) and a second
application maps that to `"AAAA"`. -/
theorem C7_counterexample :
    EP.clean_account_name_final
        (EP.clean_account_name_final ("AAAA AAAA AAAA".data)) ≠
      EP.clean_account_name_final ("AAAA AAAA AAAA".data) := by
  decide

/-- C7: the account-name normalizer of `final_balancete_parser.py` is
idempotent: `clean_description` applied to its own output returns it
unchanged, for every input string. -/
theorem C7_normalizer_idempotent (t0 : List Char) :
    FBP.clean_description (FBP.clean_description t0) = FBP.clean_description t0 := by
  obtain ⟨V, hg, ha, hk, hu⟩ := cd_shape t0
  rw [hu, cd_fixed hg ha hk]

end Balancete
